import Mathlib

/-! # icl_hash: a chained hash table (`src/icl_hash.c`)

Shallow embedding of the table operations of `src/icl_hash.c`.

Modelling conventions
* A bucket chain (`icl_entry_t` nodes linked through `next`) is the list of its
  nodes in chain order; the head of the list is the node `ht->buckets[i]` points to.
* `ht->buckets` is the list of the chains; `ht->nbuckets` is its length.
* Pointers that the code tests against `NULL` are `Option`s: the table
  reference, the key argument, the `data` field, the `oldnode` slot.
  Stored keys are never null (only `icl_hash_update_insert` stores keys and it
  rejects a null key), so `icl_entry.key` is not an `Option`.
* `unsigned int` is 32 bits wide, `int` is 32 bits wide (`BITS_IN_int = 32`).
* `my_malloc` is taken to return a fresh block.
* The `printf` of line 142 writes to standard output only and is left out.
* `string_compare` and `hash_lock` are used by `icl_hash.c` but defined
  elsewhere: the first is modelled from the spec, the second is a parameter.

The scan loop of `icl_hash_update_insert` is given twice: on lists
(`update_insert_loop`, used by the table operations) and statement by statement
on pointers (`update_insert_loop_mem`); `update_insert_loop_refines` shows that
the two agree on every well-formed chain.
-/

set_option autoImplicit false

namespace IclHash

/-! ## Data model -/

/-- One chain node (`icl_entry_t`): the key pointer and the data pointer. The
`next` link is the order of the list the node is stored in. -/
structure icl_entry (K V : Type) where
  key : K
  data : Option V
deriving DecidableEq

/-- The table (`icl_hash_t`): entry counter (an `int`), bucket array, and the
two function pointers. -/
structure icl_hash_t (K V : Type) where
  nentries : Int
  buckets : List (List (icl_entry K V))
  hash_function : K → Nat
  hash_key_compare : K → K → Bool

variable {K V : Type}

/-- Field `nbuckets`: the length of the bucket array. -/
def icl_hash_t.nbuckets (ht : icl_hash_t K V) : Nat := ht.buckets.length

/-- Read of `ht->buckets[i]`. -/
def icl_hash_t.bucket (ht : icl_hash_t K V) (i : Nat) : List (icl_entry K V) :=
  ht.buckets.getD i []

/-- The expression `(* ht->hash_function)(key) % ht->nbuckets`. -/
def icl_hash_t.hash_val (ht : icl_hash_t K V) (key : K) : Nat :=
  ht.hash_function key % ht.nbuckets

/-! ## hash_pjw (lines 34-64) -/

/-- `sizeof(int) * CHAR_BIT` for a 4-byte `int`. -/
def BITS_IN_int : Nat := 32

/-- `(BITS_IN_int * 3) / 4`. -/
def THREE_QUARTERS : Nat := (BITS_IN_int * 3) / 4

/-- `BITS_IN_int / 8`. -/
def ONE_EIGHTH : Nat := BITS_IN_int / 8

/-- `~((unsigned int)(~0) >> ONE_EIGHTH)` on 32 bits. -/
def HIGH_BITS : Nat := (2 ^ 32 - 1) ^^^ ((2 ^ 32 - 1) >>> ONE_EIGHTH)

/-- The `for` loop of `hash_pjw`: `hash_value` is the accumulator, the list is
the sequence of `char` values read through `datum` (each already promoted to
`int`, so negative where `char` is signed). The loop stops at a zero char. -/
def hash_pjw_loop : Nat → List Int → Nat
  | hash_value, [] => hash_value
  | hash_value, c :: datum =>
    if c = 0 then hash_value
    else
      let hash_value := ((((hash_value <<< ONE_EIGHTH : Nat) : Int) + c) % (2 ^ 32 : Int)).toNat
      let i := hash_value &&& HIGH_BITS
      let hash_value :=
        if i ≠ 0 then (hash_value ^^^ (i >>> THREE_QUARTERS)) &&& ((2 ^ 32 - 1) ^^^ HIGH_BITS)
        else hash_value
      hash_pjw_loop hash_value datum

/-- The function `hash_pjw`: `cstr` reads the chars stored at a key pointer. -/
def hash_pjw (cstr : K → List Int) (key : Option K) : Nat :=
  match key with
  | none => 0
  | some datum => hash_pjw_loop 0 (cstr datum)

/-- Modelled from the spec: `string_compare`, the default key predicate, which
is declared outside `icl_hash.c`; the spec calls it byte-string equality. -/
def string_compare (cstr : K → List Int) (a b : K) : Bool :=
  decide (cstr a = cstr b)

/-! ## icl_hash_create (lines 75-97) -/

/-- The function `icl_hash_create`. Both allocations succeed; every bucket is
set to the empty chain. The `hash_function` argument is never read: line 93
stores `hash_pjw` whatever it is. -/
def icl_hash_create (cstr : K → List Int) (nbuckets : Nat)
    (hash_function : Option (K → Nat)) (hash_key_compare : Option (K → K → Bool)) :
    Option (icl_hash_t K V) :=
  some ⟨0, List.replicate nbuckets [], fun key => hash_pjw cstr (some key),
    match hash_key_compare with
    | some cmp => cmp
    | none => string_compare cstr⟩

/-! ## icl_hash_find (lines 109-122) -/

/-- The `for` loop of `icl_hash_find` over the chain starting at `curr`. -/
def find_loop (cmp : K → K → Bool) (key : K) : List (icl_entry K V) → Option (icl_entry K V)
  | [] => none
  | curr :: next => if cmp curr.key key then some curr else find_loop cmp key next

/-- The function `icl_hash_find`; `none` is the `NULL` result. -/
def icl_hash_find (ht : Option (icl_hash_t K V)) (key : Option K) : Option (icl_entry K V) :=
  match ht, key with
  | some ht, some key => find_loop ht.hash_key_compare key (ht.bucket (ht.hash_val key))
  | _, _ => none

/-! ## icl_hash_update_insert (lines 135-167) -/

/-- What the loop variable `prev` of `icl_hash_update_insert` points to:
`NULL`, a node that is still linked in the chain, or a node that the loop has
already unlinked. The loop sets `prev = curr` after every iteration, also after
one that unlinked `curr`. -/
inductive prev_state where
  | null
  | linked
  | unlinked
deriving DecidableEq

/-- The scan loop of `icl_hash_update_insert` (lines 144-155). The list is the
chain from `curr` on; the result is the part of the chain from `curr` on that is
still linked when the loop ends, the counter, and the `oldnode` slot.

On a match the loop writes `*oldnode = curr` (when `oldnode` is not `NULL`),
decrements `nentries`, and stores `curr->next` in the head (`prev == NULL`) or
in `prev->next`. When `prev` is linked (or `NULL`) that store takes `curr` out
of the chain. When `prev` was itself unlinked by the previous iteration the
store lands in a node outside the chain, so `curr` stays linked
(`update_insert_loop_refines` derives this from the pointer-level loop). -/
def update_insert_loop (cmp : K → K → Bool) (key : K) :
    prev_state → List (icl_entry K V) → Int → Option (Option (icl_entry K V)) →
    List (icl_entry K V) × Int × Option (Option (icl_entry K V))
  | _, [], nentries, oldnode => ([], nentries, oldnode)
  | prev, curr :: next, nentries, oldnode =>
    if cmp curr.key key then
      let oldnode := oldnode.map (fun _ => some curr)
      let nentries := nentries - 1
      match prev with
      | prev_state.unlinked =>
        let r := update_insert_loop cmp key prev_state.linked next nentries oldnode
        (curr :: r.1, r.2)
      | _ => update_insert_loop cmp key prev_state.unlinked next nentries oldnode
    else
      let r := update_insert_loop cmp key prev_state.linked next nentries oldnode
      (curr :: r.1, r.2)

/-- Everything `icl_hash_update_insert` leaves behind: the returned node
pointer (`none` is `NULL`), the table, and the caller's `oldnode` slot. -/
structure update_insert_result (K V : Type) where
  ret : Option (icl_entry K V)
  ht : Option (icl_hash_t K V)
  oldnode : Option (Option (icl_entry K V))

/-- The function `icl_hash_update_insert`. `oldnode = none` is a `NULL` slot
pointer; `oldnode = some s` is a slot whose content is `s`. -/
def icl_hash_update_insert (ht : Option (icl_hash_t K V)) (key : Option K) (data : Option V)
    (oldnode : Option (Option (icl_entry K V))) : update_insert_result K V :=
  match ht, key with
  | some ht, some key =>
    let hash_val := ht.hash_val key
    let r := update_insert_loop ht.hash_key_compare key prev_state.null (ht.bucket hash_val)
      ht.nentries oldnode
    let out : icl_entry K V := ⟨key, data⟩
    ⟨some out,
     some ⟨r.2.1 + 1, ht.buckets.set hash_val (out :: r.1), ht.hash_function,
       ht.hash_key_compare⟩,
     r.2.2⟩
  | ht, _ => ⟨none, ht, oldnode⟩

/-! ## icl_hash_delete (lines 179-205) -/

/-- A call made through one of the destructor pointers. -/
inductive free_call (K V : Type) where
  | free_key (key : K)
  | free_data (data : V)
deriving DecidableEq

/-- The scan loop of `icl_hash_delete`: `none` when the chain is exhausted
without a match, otherwise the unlinked node and the chain without it. Here
`prev` is always a linked node, because the loop returns right after the
first unlink. -/
def delete_loop (cmp : K → K → Bool) (key : K) :
    List (icl_entry K V) → Option (icl_entry K V × List (icl_entry K V))
  | [] => none
  | curr :: next =>
    if cmp curr.key key then some (curr, next)
    else
      match delete_loop cmp key next with
      | some (found, rest) => some (found, curr :: rest)
      | none => none

/-- The destructor calls of lines 195-196 on the unlinked node: `free_key` and
`free_data` say whether the respective function pointer is non-null. Stored
keys are non-null; the data pointer may be null. -/
def destructor_calls (free_key free_data : Bool) (curr : icl_entry K V) : List (free_call K V) :=
  (if free_key then [free_call.free_key curr.key] else []) ++
  (match free_data, curr.data with
   | true, some d => [free_call.free_data d]
   | _, _ => [])

/-- Everything `icl_hash_delete` leaves behind: the return value, the table,
and the destructor calls it made, in order. -/
structure delete_result (K V : Type) where
  ret : Int
  ht : Option (icl_hash_t K V)
  calls : List (free_call K V)

/-- The function `icl_hash_delete`. -/
def icl_hash_delete (ht : Option (icl_hash_t K V)) (key : Option K) (free_key free_data : Bool) :
    delete_result K V :=
  match ht, key with
  | some ht, some key =>
    let hash_val := ht.hash_val key
    match delete_loop ht.hash_key_compare key (ht.bucket hash_val) with
    | some (curr, chain) =>
      ⟨0, some ⟨ht.nentries - 1, ht.buckets.set hash_val chain, ht.hash_function,
        ht.hash_key_compare⟩, destructor_calls free_key free_data curr⟩
    | none => ⟨-1, some ht, []⟩
  | ht, _ => ⟨-1, ht, []⟩

/-! ## icl_hash_apply_until (lines 277-303) -/

/-- What `icl_hash_apply_until` does to the outside world, in order: lock and
unlock of `mux[l]`, and calls of `vfun` on an entry. -/
inductive scan_event (K V : Type) where
  | lock (l : Nat)
  | unlock (l : Nat)
  | call (corr : icl_entry K V)
deriving DecidableEq

/-- The `while` loop of `icl_hash_apply_until` over the chain starting at
`corr`, entered with `found = 0`. `vfun` gets the entry and the current state
of the argument vector and gives back its result and the new state of the
argument vector. Result: the calls made, `found`, and the argument vector. -/
def apply_until_chain {A : Type} (vfun : icl_entry K V → A → Int × A) :
    List (icl_entry K V) → A → List (scan_event K V) × Bool × A
  | [], argv => ([], false, argv)
  | corr :: next, argv =>
    let r := vfun corr argv
    if r.1 ≠ 0 then ([scan_event.call corr], true, r.2)
    else
      let rest := apply_until_chain vfun next r.2
      (scan_event.call corr :: rest.1, rest.2)

/-- The `for` loop of `icl_hash_apply_until` from bucket index `i` on; the list
holds the chains `tab->buckets[i]`, `tab->buckets[i+1]`, ... The partition
function `hash_lock` is defined outside `icl_hash.c` and is a parameter. -/
def apply_until_buckets {A : Type} (hash_lock : Int → Nat) (vfun : icl_entry K V → A → Int × A) :
    Int → List (List (icl_entry K V)) → A → List (scan_event K V) × A
  | _, [], argv => ([], argv)
  | i, bucket :: buckets, argv =>
    let curr_lock := hash_lock i
    let acquire := if curr_lock ≠ hash_lock (i - 1) then [scan_event.lock curr_lock] else []
    let walk := apply_until_chain vfun bucket argv
    let release := if curr_lock ≠ hash_lock (i - 1) then [scan_event.unlock curr_lock] else []
    if walk.2.1 then (acquire ++ walk.1 ++ release, walk.2.2)
    else
      let rest := apply_until_buckets hash_lock vfun (i + 1) buckets walk.2.2
      (acquire ++ walk.1 ++ release ++ rest.1, rest.2)

/-- The function `icl_hash_apply_until`: the events it produces and the
argument vector it leaves. The `mux` array only shows through the lock
indices of the events. -/
def icl_hash_apply_until {A : Type} (hash_lock : Int → Nat) (tab : icl_hash_t K V)
    (vfun : icl_entry K V → A → Int × A) (argv : A) : List (scan_event K V) × A :=
  apply_until_buckets hash_lock vfun 0 tab.buckets argv

/-- The entries on which `vfun` was called, in call order. -/
def visited : List (scan_event K V) → List (icl_entry K V)
  | [] => []
  | scan_event.call corr :: evs => corr :: visited evs
  | _ :: evs => visited evs

/-! ## Call sequences -/

/-- One call of a mutating table operation with a non-null key. -/
inductive table_op (K V : Type) where
  | update_insert (key : K) (data : Option V) (oldnode : Option (Option (icl_entry K V)))
  | delete (key : K) (free_key free_data : Bool)

/-- The key argument of a call. -/
def table_op.key : table_op K V → K
  | table_op.update_insert key _ _ => key
  | table_op.delete key _ _ => key

/-- The table after one call. -/
def apply_op (ht : Option (icl_hash_t K V)) : table_op K V → Option (icl_hash_t K V)
  | table_op.update_insert key data oldnode =>
    (icl_hash_update_insert ht (some key) data oldnode).ht
  | table_op.delete key free_key free_data =>
    (icl_hash_delete ht (some key) free_key free_data).ht

/-- The table after a sequence of calls, first call first. -/
def run_ops (ht : Option (icl_hash_t K V)) (ops : List (table_op K V)) : Option (icl_hash_t K V) :=
  ops.foldl apply_op ht

/-! ## Predicates used in the statements -/

/-- The key predicate `cmp` is an equivalence relation. -/
def is_equivalence (cmp : K → K → Bool) : Prop :=
  (∀ a, cmp a a = true) ∧ (∀ a b, cmp a b = true → cmp b a = true) ∧
  (∀ a b c, cmp a b = true → cmp b c = true → cmp a c = true)

/-- Number of entries reachable by walking every bucket chain. -/
def count_entries (ht : icl_hash_t K V) : Nat :=
  (ht.buckets.map List.length).sum

/-- The entries of a chain whose key compares equal to `key`: the chain is
walked in order and each node is tested with `cmp node.key key`, the argument
order of the source. -/
def matching (cmp : K → K → Bool) (key : K) (chain : List (icl_entry K V)) :
    List (icl_entry K V) :=
  chain.filter (fun e => cmp e.key key)

/-! ## Pointer-level model of the insertion scan -/

/-- A chain node as it lies in memory: `icl_entry_t` with its `next` pointer
(`none` is `NULL`, otherwise the address of the next node). -/
structure mem_node (K V : Type) where
  key : K
  data : Option V
  next : Option Nat

/-- The node store: what lies at an address, if a node does. -/
def memory (K V : Type) : Type := Nat → Option (mem_node K V)

/-- The store `p->next = nx`. -/
def memory.set_next (mem : memory K V) (p : Nat) (nx : Option Nat) : memory K V :=
  fun a => if a = p then (mem a).map (fun nd => ⟨nd.key, nd.data, nx⟩) else mem a

/-- The variables the scan loop of `icl_hash_update_insert` works on: the node
store, the bucket head `ht->buckets[hash_val]`, `ht->nentries`, and the
caller's slot (`none`: `oldnode == NULL`). -/
structure scan_state (K V : Type) where
  mem : memory K V
  head : Option Nat
  nentries : Int
  oldnode : Option (Option Nat)

/-- The scan loop of `icl_hash_update_insert` (lines 144-155), statement by
statement on pointers. The first argument bounds the number of iterations; the
result is `none` when the bound is hit or a pointer does not lead to a node. -/
def update_insert_loop_mem (cmp : K → K → Bool) (key : K) :
    Nat → Option Nat → Option Nat → scan_state K V → Option (scan_state K V)
  | _, _, none, st => some st
  | 0, _, some _, _ => none
  | fuel + 1, prev, some curr, st =>
    match st.mem curr with
    | none => none
    | some nd =>
      let st1 : scan_state K V :=
        if cmp nd.key key then
          match prev with
          | none => ⟨st.mem, nd.next, st.nentries - 1, st.oldnode.map (fun _ => some curr)⟩
          | some p =>
            ⟨st.mem.set_next p nd.next, st.head, st.nentries - 1,
              st.oldnode.map (fun _ => some curr)⟩
        else st
      match st1.mem curr with
      | none => none
      | some nd1 => update_insert_loop_mem cmp key fuel (some curr) nd1.next st1

/-- The pointer `p` leads through exactly the nodes at `addrs`, in order, and
then to `NULL`. -/
def is_chain (mem : memory K V) : Option Nat → List Nat → Prop
  | p, [] => p = none
  | p, a :: rest => p = some a ∧ ∃ nd, mem a = some nd ∧ is_chain mem nd.next rest

/-- The key and data of the node at an address. -/
def entry_at (mem : memory K V) (a : Nat) : Option (icl_entry K V) :=
  (mem a).map (fun nd => ⟨nd.key, nd.data⟩)

/-- The entries of the nodes at the given addresses. -/
def entries_of (mem : memory K V) (addrs : List Nat) : List (icl_entry K V) :=
  addrs.filterMap (entry_at mem)

/-- How the loop variable `prev` relates to the chain: `linked` is the list of
the addresses before `curr` that are still linked, `ahead` the addresses from
`curr` on. -/
def prev_rel : prev_state → Option Nat → List Nat → List Nat → Prop
  | prev_state.null, prev, linked, _ => prev = none ∧ linked = []
  | prev_state.linked, prev, linked, _ => ∃ front p, linked = front ++ [p] ∧ prev = some p
  | prev_state.unlinked, prev, linked, ahead => ∃ p, prev = some p ∧ p ∉ linked ++ ahead

/-- Three nodes at the addresses 1, 2, 3, linked in that order; the nodes at 1
and 2 both hold the key 7. -/
def sample_memory : memory Nat Nat := fun a =>
  match a with
  | 1 => some ⟨7, some 0, some 2⟩
  | 2 => some ⟨7, some 1, some 3⟩
  | 3 => some ⟨3, some 2, none⟩
  | _ => none

/-! ## Sample tables -/

/-- A table with 4 buckets over numeric keys: the hash of a key is the key, two
keys compare equal when they are the same number. Bucket 1 holds the keys 5
and 1, bucket 2 holds the key 2. -/
def sample_table : icl_hash_t Nat Nat :=
  ⟨3, [[], [⟨5, some 50⟩, ⟨1, some 10⟩], [⟨2, none⟩], []], fun key => key,
    fun a b => decide (a = b)⟩

/-- A table like `sample_table` whose bucket 1 holds the key 1 twice. -/
def sample_dup_table : icl_hash_t Nat Nat :=
  ⟨4, [[], [⟨5, some 50⟩, ⟨1, some 10⟩, ⟨1, some 11⟩], [⟨2, none⟩], []], fun key => key,
    fun a b => decide (a = b)⟩

/-- The call sequence the spec describes for the scan: the entries of the
flat sequence `es` in order, cut off right after the first entry on which
`vfun` returns nonzero. -/
def visit_until {A : Type} (vfun : icl_entry K V → A → Int × A) :
    List (icl_entry K V) → A → List (icl_entry K V)
  | [], _ => []
  | e :: es, argv =>
    if (vfun e argv).1 ≠ 0 then [e] else e :: visit_until vfun es (vfun e argv).2

/-- A predicate for the scan of `sample_table`: it matches the key 1 and
counts its calls in the argument vector. -/
def sample_vfun (corr : icl_entry Nat Nat) (argv : Nat) : Int × Nat :=
  (if corr.key = 1 then 1 else 0, argv + 1)

/-- A lock partition: two consecutive buckets per lock (C integer division,
which truncates toward zero). -/
def sample_hash_lock (i : Int) : Nat := (Int.tdiv i 2).toNat

/-- No two entries of the chain have keys that compare equal (the earlier
entry's key is the first argument of `cmp`). -/
def no_dup (cmp : K → K → Bool) (chain : List (icl_entry K V)) : Prop :=
  chain.Pairwise (fun a b => cmp a.key b.key = false)

/-- The invariant of the tables built through the interface: no chain holds
two entries whose keys compare equal, and `nentries` is the number of entries
reachable by walking the chains. -/
def table_inv (ht : icl_hash_t K V) : Prop :=
  (∀ chain ∈ ht.buckets, no_dup ht.hash_key_compare chain) ∧
  ht.nentries = (count_entries ht : Int)

/-- A call sequence on string keys: "a" and "e" both hash to bucket 1 of a
4-bucket table under `hash_pjw`, "b" hashes to bucket 2. -/
def sample_ops : List (table_op (List Int) Nat) :=
  [table_op.update_insert [97] (some 1) none,
   table_op.update_insert [101] (some 2) none,
   table_op.update_insert [98] (some 3) none,
   table_op.update_insert [97] (some 4) (some none),
   table_op.delete [101] true true,
   table_op.delete [99] true true]

/-- A call sequence on numeric keys for `sample_table`; none of the keys is 9. -/
def sample_ops_nat : List (table_op Nat Nat) :=
  [table_op.update_insert 5 (some 51) none,
   table_op.delete 1 true true,
   table_op.update_insert 13 none (some none)]

/-! ## icl_hash_destroy (lines 216-238) -/

/-- The inner loop of `icl_hash_destroy` over the chain starting at `curr`: the
destructor calls of lines 227-228 on each node, in chain order (the guards are
those of `icl_hash_delete`, see `destructor_calls`). -/
def destroy_chain (free_key free_data : Bool) : List (icl_entry K V) → List (free_call K V)
  | [] => []
  | curr :: next => destructor_calls free_key free_data curr ++ destroy_chain free_key free_data next

/-- The outer loop of `icl_hash_destroy` over the buckets, in index order. -/
def destroy_buckets (free_key free_data : Bool) :
    List (List (icl_entry K V)) → List (free_call K V)
  | [] => []
  | bucket :: buckets =>
    destroy_chain free_key free_data bucket ++ destroy_buckets free_key free_data buckets

/-- Everything `icl_hash_destroy` leaves behind: the return value and the
destructor calls it made, in order. The table itself is freed. -/
structure destroy_result (K V : Type) where
  ret : Int
  calls : List (free_call K V)

/-- The function `icl_hash_destroy`; `free_key` and `free_data` say whether the
respective function pointer is non-null. -/
def icl_hash_destroy (ht : Option (icl_hash_t K V)) (free_key free_data : Bool) :
    destroy_result K V :=
  match ht with
  | none => ⟨-1, []⟩
  | some ht => ⟨0, destroy_buckets free_key free_data ht.buckets⟩

/-- The keys the key destructor was called on, in call order. -/
def key_calls : List (free_call K V) → List K
  | [] => []
  | free_call.free_key key :: calls => key :: key_calls calls
  | free_call.free_data _ :: calls => key_calls calls

/-- The data pointers the value destructor was called on, in call order. -/
def data_calls : List (free_call K V) → List V
  | [] => []
  | free_call.free_key _ :: calls => data_calls calls
  | free_call.free_data data :: calls => data :: data_calls calls

/-! ## Reading the lock events of a scan -/

/-- Lock discipline of an event sequence, read from left to right with the lock
currently held (`none`: no lock held): a lock is acquired only while none is
held, a release names the lock that is held, and no lock is held at the end. -/
def locks_balanced : Option Nat → List (scan_event K V) → Bool
  | held, [] => held.isNone
  | none, scan_event.lock l :: evs => locks_balanced (some l) evs
  | some _, scan_event.lock _ :: _ => false
  | some h, scan_event.unlock l :: evs => decide (h = l) && locks_balanced none evs
  | none, scan_event.unlock _ :: _ => false
  | held, scan_event.call _ :: evs => locks_balanced held evs

/-- Every predicate call of an event sequence together with the lock held at
the time of the call (`none`: no lock held). -/
def calls_with_lock : Option Nat → List (scan_event K V) → List (Option Nat × icl_entry K V)
  | _, [] => []
  | _, scan_event.lock l :: evs => calls_with_lock (some l) evs
  | _, scan_event.unlock _ :: evs => calls_with_lock none evs
  | held, scan_event.call corr :: evs => (held, corr) :: calls_with_lock held evs

/-- A predicate that always returns 0 and uses no arguments. -/
def zero_vfun (_corr : icl_entry Nat Nat) (argv : Unit) : Int × Unit := (0, argv)

/-- A lock partition with two consecutive buckets per lock in which bucket 0
opens a run: buckets 0 and 1 map to lock 1, buckets 2 and 3 to lock 2, and
the index -1 maps to lock 0. -/
def shifted_hash_lock (i : Int) : Nat := (Int.tdiv (i + 2) 2).toNat

/-- A key predicate that is not an equivalence relation: the stored key is at
most as long as the key that is looked for. -/
def shorter_or_equal (a b : List Int) : Bool := decide (a.length ≤ b.length)

/-- Two insertions into an empty one-bucket table: the key "bb", then the key "a". -/
def sample_ops_adjacent : List (table_op (List Int) Nat) :=
  [table_op.update_insert [98, 98] (some 2) none,
   table_op.update_insert [97] (some 1) none]

/-- Every entry of every bucket hashes to the index of its bucket. -/
def hash_inv (ht : icl_hash_t K V) : Prop :=
  ∀ b e, e ∈ ht.bucket b → ht.hash_function e.key % ht.nbuckets = b

/-! # Theorems -/

/-! ## Lemmas: bucket array -/

theorem bucket_set_same (bs : List (List (icl_entry K V))) (i : Nat) (c : List (icl_entry K V))
    (h : i < bs.length) : (bs.set i c).getD i [] = c := by
  simp [List.getD_eq_getElem?_getD, List.getElem?_set_self h]

theorem bucket_set_other (bs : List (List (icl_entry K V))) (i j : Nat)
    (c : List (icl_entry K V)) (h : i ≠ j) : (bs.set i c).getD j [] = bs.getD j [] := by
  simp [List.getD_eq_getElem?_getD, List.getElem?_set_ne h]

theorem hash_val_lt (ht : icl_hash_t K V) (key : K) (h : 0 < ht.nbuckets) :
    ht.hash_val key < ht.buckets.length := by
  unfold icl_hash_t.hash_val
  exact Nat.mod_lt _ h

/-! ## Lemmas: the lookup loop -/

theorem find_loop_none (cmp : K → K → Bool) (key : K) (chain : List (icl_entry K V)) :
    find_loop cmp key chain = none ↔ ∀ x ∈ chain, cmp x.key key = false := by
  induction chain with
  | nil => simp [find_loop]
  | cons curr next ih =>
    by_cases hc : cmp curr.key key = true
    · simp [find_loop, hc]
    · simp [find_loop, hc, ih]

theorem find_loop_some (cmp : K → K → Bool) (key : K) (chain : List (icl_entry K V))
    (e : icl_entry K V) :
    find_loop cmp key chain = some e ↔
      ∃ pre post, chain = pre ++ e :: post ∧ cmp e.key key = true ∧
        ∀ x ∈ pre, cmp x.key key = false := by
  induction chain with
  | nil => simp [find_loop]
  | cons curr next ih =>
    by_cases hc : cmp curr.key key = true
    · simp only [find_loop, hc, if_true, Option.some.injEq]
      constructor
      · rintro rfl
        exact ⟨[], next, rfl, hc, by simp⟩
      · rintro ⟨pre, post, hsplit, _, hpre⟩
        cases pre with
        | nil =>
          simp only [List.nil_append, List.cons.injEq] at hsplit
          exact hsplit.1
        | cons p pre =>
          simp only [List.cons_append, List.cons.injEq] at hsplit
          have := hpre p (by simp)
          rw [← hsplit.1, hc] at this
          exact absurd this (by simp)
    · simp only [find_loop, hc, Bool.false_eq_true, if_false, ih]
      constructor
      · rintro ⟨pre, post, hsplit, he, hpre⟩
        refine ⟨curr :: pre, post, by simp [hsplit], he, ?_⟩
        intro x hx
        rcases List.mem_cons.mp hx with rfl | hx
        · simpa using hc
        · exact hpre x hx
      · rintro ⟨pre, post, hsplit, he, hpre⟩
        cases pre with
        | nil =>
          simp only [List.nil_append, List.cons.injEq] at hsplit
          rw [hsplit.1] at hc
          exact absurd he hc
        | cons p pre =>
          simp only [List.cons_append, List.cons.injEq] at hsplit
          exact ⟨pre, post, hsplit.2, he, fun x hx => hpre x (List.mem_cons_of_mem _ hx)⟩

/-! ## Lemmas: the delete loop -/

theorem delete_loop_none (cmp : K → K → Bool) (key : K) (chain : List (icl_entry K V)) :
    delete_loop cmp key chain = none ↔ ∀ x ∈ chain, cmp x.key key = false := by
  induction chain with
  | nil => simp [delete_loop]
  | cons curr next ih =>
    by_cases hc : cmp curr.key key = true
    · simp [delete_loop, hc]
    · simp only [delete_loop, hc, Bool.false_eq_true, if_false]
      cases hd : delete_loop cmp key next with
      | none =>
        have := ih.mp hd
        simp only [List.mem_cons, forall_eq_or_imp, true_iff]
        exact ⟨by simpa using hc, this⟩
      | some r =>
        obtain ⟨found, rest⟩ := r
        constructor
        · intro habs
          exact absurd habs (by simp)
        · intro hall
          have : delete_loop cmp key next = none :=
            ih.mpr (fun x hx => hall x (List.mem_cons_of_mem _ hx))
          rw [this] at hd
          exact absurd hd (by simp)

theorem delete_loop_some (cmp : K → K → Bool) (key : K) (chain : List (icl_entry K V))
    (h : ∃ x ∈ chain, cmp x.key key = true) :
    ∃ pre e post, chain = pre ++ e :: post ∧ cmp e.key key = true ∧
      (∀ x ∈ pre, cmp x.key key = false) ∧
      delete_loop cmp key chain = some (e, pre ++ post) := by
  induction chain with
  | nil => simp at h
  | cons curr next ih =>
    by_cases hc : cmp curr.key key = true
    · exact ⟨[], curr, next, rfl, hc, by simp, by simp [delete_loop, hc]⟩
    · have hnext : ∃ x ∈ next, cmp x.key key = true := by
        obtain ⟨x, hx, hxk⟩ := h
        rcases List.mem_cons.mp hx with rfl | hx
        · exact absurd hxk hc
        · exact ⟨x, hx, hxk⟩
      obtain ⟨pre, e, post, hsplit, he, hpre, hdel⟩ := ih hnext
      refine ⟨curr :: pre, e, post, by simp [hsplit], he, ?_, ?_⟩
      · intro x hx
        rcases List.mem_cons.mp hx with rfl | hx
        · simpa using hc
        · exact hpre x hx
      · simp [delete_loop, hc, hdel]

/-! ## Lemmas: the scan loop of the insertion -/

theorem update_insert_loop_no_match (cmp : K → K → Bool) (key : K)
    (chain : List (icl_entry K V)) (h : ∀ x ∈ chain, cmp x.key key = false)
    (prev : prev_state) (n : Int) (s : Option (Option (icl_entry K V))) :
    update_insert_loop cmp key prev chain n s = (chain, n, s) := by
  induction chain generalizing prev with
  | nil => simp [update_insert_loop]
  | cons curr next ih =>
    have hc := h curr (by simp)
    have hrec := ih (fun x hx => h x (List.mem_cons_of_mem _ hx)) prev_state.linked
    simp [update_insert_loop, hc, hrec]

theorem update_insert_loop_single (cmp : K → K → Bool) (key : K)
    (pre post : List (icl_entry K V)) (e : icl_entry K V)
    (hpre : ∀ x ∈ pre, cmp x.key key = false) (he : cmp e.key key = true)
    (hpost : ∀ x ∈ post, cmp x.key key = false)
    (prev : prev_state) (hprev : prev ≠ prev_state.unlinked) (n : Int)
    (s : Option (Option (icl_entry K V))) :
    update_insert_loop cmp key prev (pre ++ e :: post) n s
      = (pre ++ post, n - 1, s.map (fun _ => some e)) := by
  induction pre generalizing prev with
  | nil =>
    have hrest := update_insert_loop_no_match cmp key post hpost prev_state.unlinked (n - 1)
      (s.map (fun _ => some e))
    cases prev with
    | unlinked => exact absurd rfl hprev
    | null => simp [update_insert_loop, he, hrest]
    | linked => simp [update_insert_loop, he, hrest]
  | cons x pre ih =>
    have hx := hpre x (by simp)
    have hrec := ih (fun y hy => hpre y (List.mem_cons_of_mem _ hy)) prev_state.linked
      (by simp)
    simp [update_insert_loop, hx, hrec]

theorem no_dup_after_match (cmp : K → K → Bool) (heq : is_equivalence cmp) (key : K)
    (pre post : List (icl_entry K V)) (e : icl_entry K V)
    (hnd : no_dup cmp (pre ++ e :: post)) (he : cmp e.key key = true) :
    ∀ x ∈ post, cmp x.key key = false := by
  intro x hx
  have hpair : no_dup cmp (e :: post) := by
    unfold no_dup at hnd ⊢
    exact (List.pairwise_append.mp hnd).2.1
  have hex : cmp e.key x.key = false := (List.pairwise_cons.mp hpair).1 x hx
  cases hxk : cmp x.key key with
  | false => rfl
  | true =>
    have h1 : cmp key x.key = true := heq.2.1 _ _ hxk
    have h2 : cmp e.key x.key = true := heq.2.2 _ _ _ he h1
    rw [hex] at h2
    exact absurd h2 (by simp)

theorem no_dup_prepend (cmp : K → K → Bool) (heq : is_equivalence cmp) (key : K)
    (data : Option V) (chain : List (icl_entry K V)) (hnd : no_dup cmp chain)
    (hno : ∀ x ∈ chain, cmp x.key key = false) :
    no_dup cmp ((⟨key, data⟩ : icl_entry K V) :: chain) := by
  unfold no_dup at hnd ⊢
  refine List.pairwise_cons.mpr ⟨?_, hnd⟩
  intro x hx
  cases hkx : cmp key x.key with
  | false => rfl
  | true =>
    have h1 : cmp x.key key = true := heq.2.1 _ _ hkx
    rw [hno x hx] at h1
    exact absurd h1 (by simp)

theorem no_dup_remove (cmp : K → K → Bool) (pre post : List (icl_entry K V))
    (e : icl_entry K V) (hnd : no_dup cmp (pre ++ e :: post)) : no_dup cmp (pre ++ post) := by
  unfold no_dup at hnd ⊢
  exact List.Pairwise.sublist
    (List.Sublist.append (List.Sublist.refl pre) (List.sublist_cons_self e post)) hnd

/-- What the scan loop of the insertion does to a chain without duplicates:
either no entry matches and nothing changes, or the single matching entry is
unlinked, counted off and stored in the slot. -/
theorem update_insert_loop_no_dup (cmp : K → K → Bool) (heq : is_equivalence cmp) (key : K)
    (chain : List (icl_entry K V)) (hnd : no_dup cmp chain) (n : Int)
    (s : Option (Option (icl_entry K V))) :
    ((∀ x ∈ chain, cmp x.key key = false) ∧
      update_insert_loop cmp key prev_state.null chain n s = (chain, n, s)) ∨
    (∃ pre e post, chain = pre ++ e :: post ∧ cmp e.key key = true ∧
      (∀ x ∈ pre ++ post, cmp x.key key = false) ∧
      update_insert_loop cmp key prev_state.null chain n s
        = (pre ++ post, n - 1, s.map (fun _ => some e))) := by
  cases hf : find_loop cmp key chain with
  | none =>
    have hno := (find_loop_none cmp key chain).mp hf
    exact Or.inl ⟨hno, update_insert_loop_no_match cmp key chain hno _ n s⟩
  | some e =>
    obtain ⟨pre, post, hsplit, he, hpre⟩ := (find_loop_some cmp key chain e).mp hf
    subst hsplit
    have hpost := no_dup_after_match cmp heq key pre post e hnd he
    refine Or.inr ⟨pre, e, post, rfl, he, ?_, ?_⟩
    · intro x hx
      rcases List.mem_append.mp hx with hx | hx
      · exact hpre x hx
      · exact hpost x hx
    · exact update_insert_loop_single cmp key pre post e hpre he hpost _ (by simp) n s

/-! ## Lemmas: counting entries -/

theorem count_set (bs : List (List (icl_entry K V))) (i : Nat) (c : List (icl_entry K V))
    (h : i < bs.length) :
    ((bs.set i c).map List.length).sum + (bs.getD i []).length
      = (bs.map List.length).sum + c.length := by
  induction bs generalizing i with
  | nil => simp at h
  | cons b bs ih =>
    cases i with
    | zero => simp; omega
    | succ i =>
      have := ih i (by simpa using h)
      simp only [List.set_cons_succ, List.map_cons, List.sum_cons, List.getD_cons_succ]
      omega

theorem bucket_mem (bs : List (List (icl_entry K V))) (i : Nat) (h : i < bs.length) :
    bs.getD i [] ∈ bs := by
  rw [List.getD_eq_getElem?_getD, List.getElem?_eq_getElem h]
  exact List.getElem_mem h

/-! ## Lemmas: the list-level scan loop computes what the pointer-level loop does -/

theorem entry_at_set_next (mem : memory K V) (p : Nat) (nx : Option Nat) (a : Nat) :
    entry_at (mem.set_next p nx) a = entry_at mem a := by
  unfold entry_at memory.set_next
  by_cases h : a = p
  · subst h
    cases hm : mem a <;> simp [hm]
  · simp [h]

theorem is_chain_set_next_frame (mem : memory K V) (p : Nat) (nx : Option Nat)
    (addrs : List Nat) (q : Option Nat) (hp : p ∉ addrs) (h : is_chain mem q addrs) :
    is_chain (mem.set_next p nx) q addrs := by
  induction addrs generalizing q with
  | nil => exact h
  | cons a rest ih =>
    obtain ⟨hq, nd, hnd, hrest⟩ := h
    have hap : a ≠ p := fun hap => hp (by simp [hap])
    refine ⟨hq, nd, ?_, ih nd.next (fun hmem => hp (List.mem_cons_of_mem _ hmem)) hrest⟩
    simp [memory.set_next, hap, hnd]

theorem is_chain_unlink (mem : memory K V) (front : List Nat) (p c : Nat) (rest : List Nat)
    (q : Option Nat) (nd : mem_node K V) (hc : mem c = some nd)
    (hnodup : (front ++ [p] ++ c :: rest).Nodup)
    (h : is_chain mem q (front ++ [p] ++ c :: rest)) :
    is_chain (mem.set_next p nd.next) q (front ++ [p] ++ rest) := by
  induction front generalizing q with
  | nil =>
    simp only [List.nil_append, List.singleton_append] at h hnodup ⊢
    obtain ⟨hq, ndp, hndp, hq2, ndc, hndc, hrest⟩ := h
    rw [hc] at hndc
    cases hndc
    have hprest : p ∉ rest := by
      intro hm
      have := (List.nodup_cons.mp hnodup).1
      exact this (List.mem_cons_of_mem _ hm)
    refine ⟨hq, ⟨ndp.key, ndp.data, nd.next⟩, by simp [memory.set_next, hndp], ?_⟩
    exact is_chain_set_next_frame mem p nd.next rest nd.next hprest hrest
  | cons a front ih =>
    simp only [List.cons_append, List.append_assoc] at h hnodup ⊢
    obtain ⟨hq, nda, hnda, hrest⟩ := h
    have hnodup2 := (List.nodup_cons.mp hnodup)
    have hap : a ≠ p := by
      intro hap
      apply hnodup2.1
      simp [hap]
    refine ⟨hq, nda, by simp [memory.set_next, hap, hnda], ?_⟩
    have := ih nda.next (by simpa using hnodup2.2) (by simpa using hrest)
    simpa using this

theorem entry_at_set_next_fun (mem : memory K V) (p : Nat) (nx : Option Nat) :
    entry_at (mem.set_next p nx) = entry_at mem :=
  funext (entry_at_set_next mem p nx)

theorem slot_map (f : Nat → Option (icl_entry K V)) (s : Option (Option Nat)) (c : Nat)
    (e : icl_entry K V) (he : f c = some e) :
    (s.map (fun _ => some c)).map (fun o => o.bind f)
      = (s.map (fun o => o.bind f)).map (fun _ => some e) := by
  cases s <;> simp [he]

theorem update_insert_loop_mem_inv (cmp : K → K → Bool) (key : K) (ahead : List Nat) :
    ∀ (linked : List Nat) (ps : prev_state) (prev curr : Option Nat) (st : scan_state K V),
      is_chain st.mem st.head (linked ++ ahead) → is_chain st.mem curr ahead →
      (linked ++ ahead).Nodup → prev_rel ps prev linked ahead →
      ∃ st2 kept, update_insert_loop_mem cmp key ahead.length prev curr st = some st2 ∧
        is_chain st2.mem st2.head (linked ++ kept) ∧
        entry_at st2.mem = entry_at st.mem ∧
        (entries_of st.mem kept, st2.nentries,
            st2.oldnode.map (fun o => o.bind (entry_at st.mem)))
          = update_insert_loop cmp key ps (entries_of st.mem ahead) st.nentries
              (st.oldnode.map (fun o => o.bind (entry_at st.mem))) := by
  induction ahead with
  | nil =>
    intro linked ps prev curr st hhead hcurr _ _
    have hc : curr = none := hcurr
    subst hc
    refine ⟨st, [], ?_, hhead, rfl, ?_⟩
    · simp [update_insert_loop_mem]
    · simp [entries_of, update_insert_loop]
  | cons c rest ih =>
    intro linked ps prev curr st hhead hcurr hnodup hprev
    obtain ⟨hc, nd, hnd, hrest⟩ := hcurr
    subst hc
    have he : entry_at st.mem c = some ⟨nd.key, nd.data⟩ := by simp [entry_at, hnd]
    have hents : entries_of st.mem (c :: rest) = ⟨nd.key, nd.data⟩ :: entries_of st.mem rest := by
      simp [entries_of, List.filterMap_cons, he]
    have hnodup_parts := List.nodup_append.mp hnodup
    have hc_rest : c ∉ rest := (List.nodup_cons.mp hnodup_parts.2.1).1
    have hc_linked : c ∉ linked := fun hm => hnodup_parts.2.2 hm (List.mem_cons_self _ _)
    have hnodup_snoc : ((linked ++ [c]) ++ rest).Nodup := by simpa using hnodup
    have hhead_snoc : is_chain st.mem st.head ((linked ++ [c]) ++ rest) := by simpa using hhead
    have hnodup_drop : (linked ++ rest).Nodup :=
      List.Nodup.sublist
        (List.Sublist.append (List.Sublist.refl linked) (List.sublist_cons_self c rest)) hnodup
    by_cases hm : cmp nd.key key = true
    · cases ps with
      | null =>
        obtain ⟨hp, hl⟩ := hprev
        subst hp
        subst hl
        obtain ⟨st2, kept, hrun, hch, hfr, hres⟩ := ih [] prev_state.unlinked (some c) nd.next
          ⟨st.mem, nd.next, st.nentries - 1, st.oldnode.map (fun _ => some c)⟩
          hrest hrest (by simpa using (List.nodup_cons.mp hnodup_parts.2.1).2)
          ⟨c, rfl, by simpa using hc_rest⟩
        refine ⟨st2, kept, ?_, hch, hfr, ?_⟩
        · simp [update_insert_loop_mem, hnd, hm, hrun]
        · simp only [slot_map (entry_at st.mem) st.oldnode c _ he] at hres
          rw [hres, hents]
          simp [update_insert_loop, hm]
      | linked =>
        obtain ⟨front, p, hl, hp⟩ := hprev
        subst hp
        subst hl
        have hpc : c ≠ p := fun h => hc_linked (by simp [h])
        have hp_rest : p ∉ rest := fun hm2 =>
          hnodup_parts.2.2 (by simp) (List.mem_cons_of_mem _ hm2)
        have hmem1 : (st.mem.set_next p nd.next) c = some nd := by
          simp [memory.set_next, hpc, hnd]
        obtain ⟨st2, kept, hrun, hch, hfr, hres⟩ := ih (front ++ [p]) prev_state.unlinked
          (some c) nd.next
          ⟨st.mem.set_next p nd.next, st.head, st.nentries - 1,
            st.oldnode.map (fun _ => some c)⟩
          (is_chain_unlink st.mem front p c rest st.head nd hnd hnodup hhead)
          (is_chain_set_next_frame st.mem p nd.next rest nd.next hp_rest hrest)
          hnodup_drop
          ⟨c, rfl, by
            intro hmem
            rcases List.mem_append.mp hmem with h | h
            · exact hc_linked h
            · exact hc_rest h⟩
        simp only [entry_at_set_next_fun] at hfr hres
        refine ⟨st2, kept, ?_, hch, hfr, ?_⟩
        · simp [update_insert_loop_mem, hnd, hm, hmem1, hrun]
        · simp only [entries_of, entry_at_set_next_fun] at hres
          simp only [slot_map (entry_at st.mem) st.oldnode c _ he] at hres
          rw [entries_of, hres, hents]
          simp [update_insert_loop, hm, entries_of]
      | unlinked =>
        obtain ⟨p, hp, hpn⟩ := hprev
        subst hp
        have hpc : c ≠ p := fun h => hpn (by simp [h])
        have hmem1 : (st.mem.set_next p nd.next) c = some nd := by
          simp [memory.set_next, hpc, hnd]
        obtain ⟨st2, kept, hrun, hch, hfr, hres⟩ := ih (linked ++ [c]) prev_state.linked
          (some c) nd.next
          ⟨st.mem.set_next p nd.next, st.head, st.nentries - 1,
            st.oldnode.map (fun _ => some c)⟩
          (is_chain_set_next_frame st.mem p nd.next _ st.head (by simpa using hpn) hhead_snoc)
          (is_chain_set_next_frame st.mem p nd.next rest nd.next
            (fun hm2 => hpn (by simp [hm2])) hrest)
          hnodup_snoc ⟨linked, c, rfl, rfl⟩
        simp only [entry_at_set_next_fun] at hfr hres
        refine ⟨st2, c :: kept, ?_, by simpa using hch, hfr, ?_⟩
        · simp [update_insert_loop_mem, hnd, hm, hmem1, hrun]
        · simp only [entries_of, entry_at_set_next_fun] at hres
          simp only [slot_map (entry_at st.mem) st.oldnode c _ he] at hres
          have hk : entries_of st.mem (c :: kept) = ⟨nd.key, nd.data⟩ :: entries_of st.mem kept := by
            simp [entries_of, List.filterMap_cons, he]
          rw [hk, hents]
          simp only [update_insert_loop, hm, if_true]
          simp only [entries_of]
          rw [← hres]
    · obtain ⟨st2, kept, hrun, hch, hfr, hres⟩ := ih (linked ++ [c]) prev_state.linked
        (some c) nd.next st hhead_snoc hrest hnodup_snoc ⟨linked, c, rfl, rfl⟩
      refine ⟨st2, c :: kept, ?_, by simpa using hch, hfr, ?_⟩
      · simp [update_insert_loop_mem, hnd, hm, hrun]
      · have hk : entries_of st.mem (c :: kept) = ⟨nd.key, nd.data⟩ :: entries_of st.mem kept := by
          simp [entries_of, List.filterMap_cons, he]
        rw [hk, hents]
        simp only [update_insert_loop, hm, Bool.false_eq_true, if_false]
        rw [← hres]


/-- On a well-formed chain (the head leads through pairwise different nodes to
`NULL`) the pointer-level scan loop of `icl_hash_update_insert` terminates, and
the chain it leaves behind, the counter and the slot are those computed by
`update_insert_loop` on the list of the chain's entries. -/
theorem update_insert_loop_refines (cmp : K → K → Bool) (key : K) (mem : memory K V)
    (head : Option Nat) (addrs : List Nat) (hchain : is_chain mem head addrs)
    (hnodup : addrs.Nodup) (n : Int) (s : Option (Option Nat)) :
    ∃ st kept,
      update_insert_loop_mem cmp key addrs.length none head ⟨mem, head, n, s⟩ = some st ∧
      is_chain st.mem st.head kept ∧
      (entries_of st.mem kept, st.nentries, st.oldnode.map (fun o => o.bind (entry_at st.mem)))
        = update_insert_loop cmp key prev_state.null (entries_of mem addrs) n
            (s.map (fun o => o.bind (entry_at mem))) := by
  obtain ⟨st, kept, hrun, hch, hfr, hres⟩ := update_insert_loop_mem_inv cmp key addrs []
    prev_state.null none head ⟨mem, head, n, s⟩ (by simpa using hchain) hchain
    (by simpa using hnodup) ⟨rfl, rfl⟩
  refine ⟨st, kept, hrun, by simpa using hch, ?_⟩
  simp only [entries_of] at hres ⊢
  rw [hfr]
  exact hres

/-- The pointer-level loop on `sample_memory` with key 7: the node at 1 is
unlinked through the head, then `prev` is that unlinked node, so the store for
the node at 2 goes to the node at 1 and the node at 2 stays the head of the
chain, while the counter went from 3 to 1 and the slot holds the node at 2. -/
theorem update_insert_loop_mem_adjacent :
    (update_insert_loop_mem (fun a b => decide (a = b)) 7 3 none (some 1)
        ⟨sample_memory, some 1, 3, some none⟩).map
      (fun st => (st.head, st.nentries, st.oldnode, (st.mem 1).map (fun nd => nd.next),
        (st.mem 2).map (fun nd => nd.next)))
      = some (some 2, 1, some (some 2), some (some 3), some (some 3)) := by
  decide

/-! ## Lemmas: the invariant along call sequences -/

theorem update_insert_inv (ht : icl_hash_t K V) (hn : 0 < ht.nbuckets)
    (heq : is_equivalence ht.hash_key_compare) (hinv : table_inv ht) (key : K)
    (data : Option V) (oldnode : Option (Option (icl_entry K V))) :
    ∃ t, (icl_hash_update_insert (some ht) (some key) data oldnode).ht = some t ∧
      table_inv t ∧ t.hash_key_compare = ht.hash_key_compare ∧
      t.hash_function = ht.hash_function ∧ t.nbuckets = ht.nbuckets := by
  have hlt := hash_val_lt ht key hn
  have hnd : no_dup ht.hash_key_compare (ht.bucket (ht.hash_val key)) :=
    hinv.1 _ (bucket_mem ht.buckets _ hlt)
  have hcount := hinv.2
  unfold count_entries at hcount
  rcases update_insert_loop_no_dup ht.hash_key_compare heq key _ hnd ht.nentries oldnode with
    ⟨hno, hloop⟩ | ⟨pre, e, post, hsplit, he, hno, hloop⟩
  · refine ⟨⟨ht.nentries + 1,
      ht.buckets.set (ht.hash_val key) (⟨key, data⟩ :: ht.bucket (ht.hash_val key)),
      ht.hash_function, ht.hash_key_compare⟩, ?_, ⟨?_, ?_⟩, rfl, rfl, ?_⟩
    · simp [icl_hash_update_insert, hloop]
    · intro chain hchain
      rcases List.mem_or_eq_of_mem_set hchain with hmem | rfl
      · exact hinv.1 chain hmem
      · exact no_dup_prepend _ heq key data _ hnd hno
    · have hc := count_set ht.buckets (ht.hash_val key)
        (⟨key, data⟩ :: ht.bucket (ht.hash_val key)) hlt
      simp only [count_entries, icl_hash_t.bucket, List.length_cons] at hc ⊢
      omega
    · simp [icl_hash_t.nbuckets]
  · refine ⟨⟨ht.nentries - 1 + 1,
      ht.buckets.set (ht.hash_val key) (⟨key, data⟩ :: (pre ++ post)),
      ht.hash_function, ht.hash_key_compare⟩, ?_, ⟨?_, ?_⟩, rfl, rfl, ?_⟩
    · simp [icl_hash_update_insert, hloop]
    · intro chain hchain
      rcases List.mem_or_eq_of_mem_set hchain with hmem | rfl
      · exact hinv.1 chain hmem
      · rw [hsplit] at hnd
        exact no_dup_prepend _ heq key data _ (no_dup_remove _ pre post e hnd) hno
    · have hc := count_set ht.buckets (ht.hash_val key) (⟨key, data⟩ :: (pre ++ post)) hlt
      have hb : (ht.buckets.getD (ht.hash_val key) []).length = pre.length + post.length + 1 := by
        have := congrArg List.length hsplit
        simp only [icl_hash_t.bucket, List.length_append, List.length_cons] at this
        omega
      simp only [count_entries, List.length_cons, List.length_append] at hc ⊢
      omega
    · simp [icl_hash_t.nbuckets]

theorem delete_inv (ht : icl_hash_t K V) (hn : 0 < ht.nbuckets) (hinv : table_inv ht)
    (key : K) (free_key free_data : Bool) :
    ∃ t, (icl_hash_delete (some ht) (some key) free_key free_data).ht = some t ∧
      table_inv t ∧ t.hash_key_compare = ht.hash_key_compare ∧
      t.hash_function = ht.hash_function ∧ t.nbuckets = ht.nbuckets := by
  have hlt := hash_val_lt ht key hn
  have hnd : no_dup ht.hash_key_compare (ht.bucket (ht.hash_val key)) :=
    hinv.1 _ (bucket_mem ht.buckets _ hlt)
  have hcount := hinv.2
  unfold count_entries at hcount
  by_cases hex : ∃ x ∈ ht.bucket (ht.hash_val key), ht.hash_key_compare x.key key = true
  · obtain ⟨pre, e, post, hsplit, _, _, hdel⟩ := delete_loop_some ht.hash_key_compare key _ hex
    refine ⟨⟨ht.nentries - 1, ht.buckets.set (ht.hash_val key) (pre ++ post),
      ht.hash_function, ht.hash_key_compare⟩, ?_, ⟨?_, ?_⟩, rfl, rfl, ?_⟩
    · simp [icl_hash_delete, hdel]
    · intro chain hchain
      rcases List.mem_or_eq_of_mem_set hchain with hmem | rfl
      · exact hinv.1 chain hmem
      · rw [hsplit] at hnd
        exact no_dup_remove _ pre post e hnd
    · have hc := count_set ht.buckets (ht.hash_val key) (pre ++ post) hlt
      have hb : (ht.buckets.getD (ht.hash_val key) []).length = pre.length + post.length + 1 := by
        have := congrArg List.length hsplit
        simp only [icl_hash_t.bucket, List.length_append, List.length_cons] at this
        omega
      simp only [count_entries, List.length_append] at hc ⊢
      omega
    · simp [icl_hash_t.nbuckets]
  · have hno : ∀ x ∈ ht.bucket (ht.hash_val key), ht.hash_key_compare x.key key = false := by
      intro x hx
      cases hxk : ht.hash_key_compare x.key key with
      | false => rfl
      | true => exact absurd ⟨x, hx, hxk⟩ hex
    have hdel := (delete_loop_none ht.hash_key_compare key _).mpr hno
    exact ⟨ht, by simp [icl_hash_delete, hdel], hinv, rfl, rfl, rfl⟩

theorem apply_op_inv (ht : icl_hash_t K V) (hn : 0 < ht.nbuckets)
    (heq : is_equivalence ht.hash_key_compare) (hinv : table_inv ht) (op : table_op K V) :
    ∃ t, apply_op (some ht) op = some t ∧
      table_inv t ∧ t.hash_key_compare = ht.hash_key_compare ∧
      t.hash_function = ht.hash_function ∧ t.nbuckets = ht.nbuckets := by
  cases op with
  | update_insert key data oldnode => exact update_insert_inv ht hn heq hinv key data oldnode
  | delete key free_key free_data => exact delete_inv ht hn hinv key free_key free_data

theorem run_ops_inv (ops : List (table_op K V)) (ht : icl_hash_t K V) (hn : 0 < ht.nbuckets)
    (heq : is_equivalence ht.hash_key_compare) (hinv : table_inv ht) :
    ∃ t, run_ops (some ht) ops = some t ∧
      table_inv t ∧ t.hash_key_compare = ht.hash_key_compare ∧
      t.hash_function = ht.hash_function ∧ t.nbuckets = ht.nbuckets := by
  induction ops generalizing ht with
  | nil => exact ⟨ht, rfl, hinv, rfl, rfl, rfl⟩
  | cons op ops ih =>
    obtain ⟨t1, h1, hinv1, hcmp1, hhash1, hnb1⟩ := apply_op_inv ht hn heq hinv op
    obtain ⟨t, h2, hinv2, hcmp2, hhash2, hnb2⟩ :=
      ih t1 (by rw [hnb1]; exact hn) (by rw [hcmp1]; exact heq) hinv1
    refine ⟨t, ?_, hinv2, hcmp2.trans hcmp1, hhash2.trans hhash1, hnb2.trans hnb1⟩
    simp only [run_ops, List.foldl_cons] at h2 ⊢
    rw [h1]
    exact h2

theorem create_inv (cstr : K → List Int) (n : Nat) (hash_function : Option (K → Nat))
    (hash_key_compare : Option (K → K → Bool)) (t : icl_hash_t K V)
    (h : icl_hash_create cstr n hash_function hash_key_compare = some t) :
    table_inv t ∧ t.nbuckets = n := by
  simp only [icl_hash_create, Option.some.injEq] at h
  subst h
  refine ⟨⟨?_, ?_⟩, ?_⟩
  · intro chain hchain
    have : chain = [] := List.eq_of_mem_replicate hchain
    subst this
    exact List.Pairwise.nil
  · simp [count_entries]
  · simp [icl_hash_t.nbuckets]

/-! ## Lemmas: lookups that a call does not disturb -/

theorem string_compare_equivalence (cstr : K → List Int) :
    is_equivalence (string_compare cstr) := by
  refine ⟨?_, ?_, ?_⟩
  · intro a
    simp [string_compare]
  · intro a b h
    simp only [string_compare, decide_eq_true_eq] at h ⊢
    exact h.symm
  · intro a b c hab hbc
    simp only [string_compare, decide_eq_true_eq] at hab hbc ⊢
    exact hab.trans hbc

/-- With an equivalence relation, an entry that matches a key `key` cannot match
a key `k` that `key` does not compare equal to. -/
theorem match_excludes (cmp : K → K → Bool) (heq : is_equivalence cmp) (key k : K)
    (hne : cmp key k = false) (x : K) (hx : cmp x key = true) : cmp x k = false := by
  cases hxk : cmp x k with
  | false => rfl
  | true =>
    have h1 : cmp key x = true := heq.2.1 _ _ hx
    have h2 : cmp key k = true := heq.2.2 _ _ _ h1 hxk
    rw [hne] at h2
    exact absurd h2 (by simp)

theorem find_loop_after_scan (cmp : K → K → Bool) (key k : K) (chain : List (icl_entry K V))
    (h : ∀ x ∈ chain, cmp x.key key = true → cmp x.key k = false)
    (prev : prev_state) (n : Int) (s : Option (Option (icl_entry K V))) :
    find_loop cmp k (update_insert_loop cmp key prev chain n s).1 = find_loop cmp k chain := by
  induction chain generalizing prev n s with
  | nil => simp [update_insert_loop]
  | cons curr next ih =>
    have hnext : ∀ x ∈ next, cmp x.key key = true → cmp x.key k = false :=
      fun x hx => h x (List.mem_cons_of_mem _ hx)
    by_cases hc : cmp curr.key key = true
    · have hck : cmp curr.key k = false := h curr (by simp) hc
      cases prev with
      | unlinked => simp [update_insert_loop, hc, find_loop, hck, ih hnext]
      | null => simp [update_insert_loop, hc, find_loop, hck, ih hnext]
      | linked => simp [update_insert_loop, hc, find_loop, hck, ih hnext]
    · simp [update_insert_loop, hc, find_loop, ih hnext]

theorem find_loop_remove (cmp : K → K → Bool) (k : K) (pre post : List (icl_entry K V))
    (e : icl_entry K V) (he : cmp e.key k = false) :
    find_loop cmp k (pre ++ post) = find_loop cmp k (pre ++ e :: post) := by
  induction pre with
  | nil => simp [find_loop, he]
  | cons x pre ih => simp [find_loop, ih]

theorem find_after_update_insert (ht : icl_hash_t K V) (hn : 0 < ht.nbuckets)
    (heq : is_equivalence ht.hash_key_compare) (key k : K)
    (hne : ht.hash_key_compare key k = false) (data : Option V)
    (oldnode : Option (Option (icl_entry K V))) :
    ∃ t, (icl_hash_update_insert (some ht) (some key) data oldnode).ht = some t ∧
      t.hash_key_compare = ht.hash_key_compare ∧ t.nbuckets = ht.nbuckets ∧
      icl_hash_find (some t) (some k) = icl_hash_find (some ht) (some k) := by
  refine ⟨_, rfl, rfl, by simp [icl_hash_t.nbuckets], ?_⟩
  by_cases hb : ht.hash_val key = ht.hash_val k
  · have hlt := hash_val_lt ht key hn
    have hscan := find_loop_after_scan ht.hash_key_compare key k (ht.bucket (ht.hash_val key))
      (fun x _ hx => match_excludes _ heq key k hne x.key hx) prev_state.null ht.nentries oldnode
    simp only [icl_hash_find, icl_hash_t.bucket, icl_hash_t.hash_val, icl_hash_t.nbuckets,
      List.length_set] at hb hlt hscan ⊢
    rw [← hb, bucket_set_same _ _ _ hlt]
    simp only [find_loop, hne, Bool.false_eq_true, if_false]
    exact hscan
  · simp only [icl_hash_find, icl_hash_t.bucket, icl_hash_t.hash_val, icl_hash_t.nbuckets,
      List.length_set] at hb ⊢
    rw [bucket_set_other _ _ _ _ hb]

theorem find_after_delete (ht : icl_hash_t K V) (hn : 0 < ht.nbuckets)
    (heq : is_equivalence ht.hash_key_compare) (key k : K)
    (hne : ht.hash_key_compare key k = false) (free_key free_data : Bool) :
    ∃ t, (icl_hash_delete (some ht) (some key) free_key free_data).ht = some t ∧
      t.hash_key_compare = ht.hash_key_compare ∧ t.nbuckets = ht.nbuckets ∧
      icl_hash_find (some t) (some k) = icl_hash_find (some ht) (some k) := by
  by_cases hex : ∃ x ∈ ht.bucket (ht.hash_val key), ht.hash_key_compare x.key key = true
  · obtain ⟨pre, e, post, hsplit, he, _, hdel⟩ := delete_loop_some ht.hash_key_compare key _ hex
    refine ⟨⟨ht.nentries - 1, ht.buckets.set (ht.hash_val key) (pre ++ post),
      ht.hash_function, ht.hash_key_compare⟩, by simp [icl_hash_delete, hdel], rfl,
      by simp [icl_hash_t.nbuckets], ?_⟩
    have hek : ht.hash_key_compare e.key k = false := match_excludes _ heq key k hne e.key he
    by_cases hb : ht.hash_val key = ht.hash_val k
    · have hlt := hash_val_lt ht key hn
      simp only [icl_hash_find, icl_hash_t.bucket, icl_hash_t.hash_val, icl_hash_t.nbuckets,
        List.length_set] at hb hlt hsplit ⊢
      rw [← hb, bucket_set_same _ _ _ hlt, hsplit]
      exact find_loop_remove _ k pre post e hek
    · simp only [icl_hash_find, icl_hash_t.bucket, icl_hash_t.hash_val, icl_hash_t.nbuckets,
        List.length_set] at hb ⊢
      rw [bucket_set_other _ _ _ _ hb]
  · have hno : ∀ x ∈ ht.bucket (ht.hash_val key), ht.hash_key_compare x.key key = false := by
      intro x hx
      cases hxk : ht.hash_key_compare x.key key with
      | false => rfl
      | true => exact absurd ⟨x, hx, hxk⟩ hex
    have hdel := (delete_loop_none ht.hash_key_compare key _).mpr hno
    exact ⟨ht, by simp [icl_hash_delete, hdel], rfl, rfl, rfl⟩

theorem find_after_run_ops (ops : List (table_op K V)) (ht : icl_hash_t K V)
    (hn : 0 < ht.nbuckets) (heq : is_equivalence ht.hash_key_compare) (k : K)
    (hops : ∀ op ∈ ops, ht.hash_key_compare op.key k = false) :
    ∃ t, run_ops (some ht) ops = some t ∧
      icl_hash_find (some t) (some k) = icl_hash_find (some ht) (some k) := by
  induction ops generalizing ht with
  | nil => exact ⟨ht, rfl, rfl⟩
  | cons op ops ih =>
    have hop := hops op (by simp)
    have hstep : ∃ t1, apply_op (some ht) op = some t1 ∧
        t1.hash_key_compare = ht.hash_key_compare ∧ t1.nbuckets = ht.nbuckets ∧
        icl_hash_find (some t1) (some k) = icl_hash_find (some ht) (some k) := by
      cases op with
      | update_insert key data oldnode =>
        exact find_after_update_insert ht hn heq key k hop data oldnode
      | delete key free_key free_data =>
        exact find_after_delete ht hn heq key k hop free_key free_data
    obtain ⟨t1, h1, hcmp1, hnb1, hfind1⟩ := hstep
    obtain ⟨t, h2, hfind2⟩ := ih t1 (by rw [hnb1]; exact hn) (by rw [hcmp1]; exact heq)
      (fun op' hop' => by rw [hcmp1]; exact hops op' (List.mem_cons_of_mem _ hop'))
    refine ⟨t, ?_, hfind2.trans hfind1⟩
    simp only [run_ops, List.foldl_cons] at h2 ⊢
    rw [h1]
    exact h2

/-! ## Lemmas: inserting the same key twice -/

theorem sample_table_equivalence : is_equivalence sample_table.hash_key_compare := by
  refine ⟨?_, ?_, ?_⟩
  · intro a
    simp [sample_table]
  · intro a b h
    simp only [sample_table, decide_eq_true_eq] at h ⊢
    exact h.symm
  · intro a b c hab hbc
    simp only [sample_table, decide_eq_true_eq] at hab hbc ⊢
    exact hab.trans hbc

/-- On a table that satisfies the invariant, the insertion leaves the new entry
at the head of the target chain, followed by entries that do not match the key. -/
theorem update_insert_on_inv (ht : icl_hash_t K V)
    (heq : is_equivalence ht.hash_key_compare) (k : K)
    (hnd : no_dup ht.hash_key_compare (ht.bucket (ht.hash_val k)))
    (v : Option V) (oldnode : Option (Option (icl_entry K V))) :
    ∃ (m : Int) (rest : List (icl_entry K V)),
      (∀ x ∈ rest, ht.hash_key_compare x.key k = false) ∧
      (icl_hash_update_insert (some ht) (some k) v oldnode).ht
        = some ⟨m, ht.buckets.set (ht.hash_val k) (⟨k, v⟩ :: rest), ht.hash_function,
            ht.hash_key_compare⟩ := by
  rcases update_insert_loop_no_dup ht.hash_key_compare heq k _ hnd ht.nentries oldnode with
    ⟨hno, hloop⟩ | ⟨pre, e, post, _, _, hno, hloop⟩
  · exact ⟨ht.nentries + 1, ht.bucket (ht.hash_val k), hno,
      by simp [icl_hash_update_insert, hloop]⟩
  · exact ⟨ht.nentries - 1 + 1, pre ++ post, hno, by simp [icl_hash_update_insert, hloop]⟩

/-- Inserting a key over a chain whose head holds that key and whose other
entries do not match it: the head is unlinked and stored in the slot, the new
entry takes its place. -/
theorem update_insert_over_head (t1 : icl_hash_t K V) (hn : 0 < t1.nbuckets) (k : K)
    (v1 v2 : Option V) (rest : List (icl_entry K V)) (slot : Option (icl_entry K V))
    (hb : t1.bucket (t1.hash_val k) = ⟨k, v1⟩ :: rest)
    (hrefl : t1.hash_key_compare k k = true)
    (hno : ∀ x ∈ rest, t1.hash_key_compare x.key k = false) :
    ∃ t2, (icl_hash_update_insert (some t1) (some k) v2 (some slot)).ht = some t2 ∧
      t2.hash_key_compare = t1.hash_key_compare ∧
      t2.bucket (t2.hash_function k % t2.nbuckets) = ⟨k, v2⟩ :: rest ∧
      (icl_hash_update_insert (some t1) (some k) v2 (some slot)).oldnode
        = some (some ⟨k, v1⟩) := by
  have hlt := hash_val_lt t1 k hn
  have hloop := update_insert_loop_single t1.hash_key_compare k [] rest ⟨k, v1⟩ (by simp) hrefl
    hno prev_state.null (by simp) t1.nentries (some slot)
  simp only [List.nil_append] at hloop
  rw [← hb] at hloop
  refine ⟨⟨t1.nentries - 1 + 1, t1.buckets.set (t1.hash_val k) (⟨k, v2⟩ :: rest),
    t1.hash_function, t1.hash_key_compare⟩, ?_, rfl, ?_, ?_⟩
  · simp [icl_hash_update_insert, hloop]
  · simp only [icl_hash_t.bucket, icl_hash_t.hash_val, icl_hash_t.nbuckets,
      List.length_set] at hlt ⊢
    exact bucket_set_same _ _ _ hlt
  · simp [icl_hash_update_insert, hloop]

theorem matching_head_only (cmp : K → K → Bool) (k : K) (v : Option V)
    (rest : List (icl_entry K V)) (hrefl : cmp k k = true)
    (hno : ∀ x ∈ rest, cmp x.key k = false) :
    matching cmp k ((⟨k, v⟩ : icl_entry K V) :: rest) = [⟨k, v⟩] := by
  have hrest : rest.filter (fun e => cmp e.key k) = [] := by
    rw [List.filter_eq_nil_iff]
    intro x hx
    simp [hno x hx]
  simp [matching, List.filter_cons, hrefl, hrest]

/-! ## C1: the entry counter -/

/-- C1: take the table returned by `icl_hash_create` with `nbuckets > 0` and a
key predicate that is an equivalence relation, and apply any sequence of
`icl_hash_update_insert` and `icl_hash_delete` calls with non-null keys. The
sequence runs to a table whose `nentries` equals the number of entries
reachable by walking all bucket chains. Every prefix of a call sequence is a
call sequence, so this holds after each call. -/
theorem C1_nentries_counts_entries (cstr : K → List Int) (n : Nat) (hn : 0 < n)
    (hash_function : Option (K → Nat)) (hash_key_compare : Option (K → K → Bool))
    (t0 : icl_hash_t K V)
    (hcreate : icl_hash_create cstr n hash_function hash_key_compare = some t0)
    (heq : is_equivalence t0.hash_key_compare) (ops : List (table_op K V)) :
    ∃ t, run_ops (icl_hash_create cstr n hash_function hash_key_compare) ops = some t ∧
      t.nentries = ((t.buckets.map List.length).sum : Nat) := by
  obtain ⟨hinv0, hnb0⟩ := create_inv cstr n hash_function hash_key_compare t0 hcreate
  obtain ⟨t, hrun, hinv, _, _, _⟩ := run_ops_inv ops t0 (by rw [hnb0]; exact hn) heq hinv0
  rw [hcreate]
  exact ⟨t, hrun, hinv.2⟩

/-- C1 on the table created with 4 buckets and the default string predicate,
after the six calls of `sample_ops`. -/
theorem C1_nentries_counts_entries_witness :
    0 < 4 ∧ is_equivalence (string_compare (fun k : List Int => k)) ∧
    ∃ t : icl_hash_t (List Int) Nat,
      run_ops (icl_hash_create (fun k => k) 4 none none) sample_ops = some t ∧
      t.nentries = ((t.buckets.map List.length).sum : Nat) :=
  ⟨by decide, string_compare_equivalence _,
    C1_nentries_counts_entries (fun k => k) 4 (by decide) none none _ rfl
      (string_compare_equivalence _) sample_ops⟩

/-! ## C2: an inserted key stays findable -/

/-- C2: on a table with `nbuckets > 0` whose key predicate is an equivalence
relation, `icl_hash_update_insert(ht, k, v, _)` with a non-null key returns the
new entry (key `k`, data `v`); after any further sequence of update_insert and
delete calls whose keys do not compare equal to `k`, the sequence runs to a
table on which `icl_hash_find(ht, k)` returns that entry, whose data is `v`. -/
theorem C2_inserted_key_found (ht : icl_hash_t K V) (hn : 0 < ht.nbuckets)
    (heq : is_equivalence ht.hash_key_compare) (k : K) (v : Option V)
    (oldnode : Option (Option (icl_entry K V))) (ops : List (table_op K V))
    (hops : ∀ op ∈ ops, ht.hash_key_compare op.key k = false) :
    (icl_hash_update_insert (some ht) (some k) v oldnode).ret = some ⟨k, v⟩ ∧
    ∃ t e, run_ops (icl_hash_update_insert (some ht) (some k) v oldnode).ht ops = some t ∧
      icl_hash_find (some t) (some k) = some e ∧ e.key = k ∧ e.data = v := by
  refine ⟨rfl, ?_⟩
  have hlt := hash_val_lt ht k hn
  obtain ⟨t, hrun, hfind⟩ := find_after_run_ops ops
    (⟨(update_insert_loop ht.hash_key_compare k prev_state.null (ht.bucket (ht.hash_val k))
        ht.nentries oldnode).2.1 + 1,
      ht.buckets.set (ht.hash_val k) (⟨k, v⟩ ::
        (update_insert_loop ht.hash_key_compare k prev_state.null (ht.bucket (ht.hash_val k))
          ht.nentries oldnode).1),
      ht.hash_function, ht.hash_key_compare⟩ : icl_hash_t K V)
    (by simpa [icl_hash_t.nbuckets] using hn) heq k hops
  refine ⟨t, ⟨k, v⟩, hrun, ?_, rfl, rfl⟩
  rw [hfind]
  simp only [icl_hash_find, icl_hash_t.bucket, icl_hash_t.hash_val, icl_hash_t.nbuckets,
    List.length_set] at hlt ⊢
  rw [bucket_set_same _ _ _ hlt]
  simp [find_loop, heq.1 k]

/-- C2 at `sample_table`: key 9 is inserted with data 90, then the three calls
of `sample_ops_nat` (keys 5, 1 and 13, all in the bucket of 9) are made. -/
theorem C2_inserted_key_found_witness :
    0 < sample_table.nbuckets ∧
    (∀ op ∈ sample_ops_nat, sample_table.hash_key_compare op.key 9 = false) ∧
    ∃ t e, run_ops (icl_hash_update_insert (some sample_table) (some 9) (some 90) none).ht
        sample_ops_nat = some t ∧
      icl_hash_find (some t) (some 9) = some e ∧ e.key = 9 ∧ e.data = some 90 :=
  ⟨by decide, by decide,
    (C2_inserted_key_found sample_table (by decide) sample_table_equivalence 9 (some 90) none
      sample_ops_nat (by decide)).2⟩

/-! ## C3: inserting a key twice -/

/-- C3: let `ht` be reached from `icl_hash_create` (`nbuckets > 0`, key
predicate an equivalence relation) by update_insert and delete calls, and `k` a
non-null key. After `icl_hash_update_insert(k, v1)` followed by
`icl_hash_update_insert(k, v2, &old)`, the entries of bucket
`hash(k) % nbuckets` that compare equal to `k` are exactly one entry, it has
key `k` and data `v2`, and the slot `old` holds the entry returned by the
first call (key `k`, data `v1`). -/
theorem C3_insert_twice (cstr : K → List Int) (n : Nat) (hn : 0 < n)
    (hash_function : Option (K → Nat)) (hash_key_compare : Option (K → K → Bool))
    (t0 : icl_hash_t K V)
    (hcreate : icl_hash_create cstr n hash_function hash_key_compare = some t0)
    (heq : is_equivalence t0.hash_key_compare) (ops : List (table_op K V))
    (ht : icl_hash_t K V) (hreach : run_ops (some t0) ops = some ht)
    (k : K) (v1 v2 : Option V) (old1 : Option (Option (icl_entry K V)))
    (slot : Option (icl_entry K V)) :
    ∃ t2 : icl_hash_t K V,
      (icl_hash_update_insert (icl_hash_update_insert (some ht) (some k) v1 old1).ht
        (some k) v2 (some slot)).ht = some t2 ∧
      matching t2.hash_key_compare k (t2.bucket (t2.hash_function k % t2.nbuckets))
        = [⟨k, v2⟩] ∧
      (icl_hash_update_insert (some ht) (some k) v1 old1).ret = some ⟨k, v1⟩ ∧
      (icl_hash_update_insert (icl_hash_update_insert (some ht) (some k) v1 old1).ht
        (some k) v2 (some slot)).oldnode = some (some ⟨k, v1⟩) := by
  obtain ⟨hinv0, hnb0⟩ := create_inv cstr n hash_function hash_key_compare t0 hcreate
  obtain ⟨t, hrun, hinv, hcmp, _, hnb⟩ :=
    run_ops_inv ops t0 (by rw [hnb0]; exact hn) heq hinv0
  rw [hreach, Option.some.injEq] at hrun
  subst hrun
  have hpos : 0 < ht.nbuckets := by rw [hnb, hnb0]; exact hn
  have heqt : is_equivalence ht.hash_key_compare := by rw [hcmp]; exact heq
  have hlt := hash_val_lt ht k hpos
  have hnd : no_dup ht.hash_key_compare (ht.bucket (ht.hash_val k)) :=
    hinv.1 _ (bucket_mem ht.buckets _ hlt)
  obtain ⟨m, rest, hno, hfirst⟩ := update_insert_on_inv ht heqt k hnd v1 old1
  have hb : (⟨m, ht.buckets.set (ht.hash_val k) (⟨k, v1⟩ :: rest), ht.hash_function,
      ht.hash_key_compare⟩ : icl_hash_t K V).bucket
      ((⟨m, ht.buckets.set (ht.hash_val k) (⟨k, v1⟩ :: rest), ht.hash_function,
        ht.hash_key_compare⟩ : icl_hash_t K V).hash_val k) = ⟨k, v1⟩ :: rest := by
    simp only [icl_hash_t.bucket, icl_hash_t.hash_val, icl_hash_t.nbuckets,
      List.length_set] at hlt ⊢
    exact bucket_set_same _ _ _ hlt
  obtain ⟨t2, hsecond, hcmp2, hbucket2, hold⟩ := update_insert_over_head _
    (by simpa [icl_hash_t.nbuckets] using hpos) k v1 v2 rest slot hb (heqt.1 k) hno
  rw [hfirst]
  refine ⟨t2, hsecond, ?_, rfl, hold⟩
  rw [hbucket2, hcmp2]
  exact matching_head_only _ k v2 rest (heqt.1 k) hno

/-- C3 on the table reached by `sample_ops` from the 4-bucket table with the
default string predicate: the key "e" is inserted with data 10, then with
data 20 and a slot. -/
theorem C3_insert_twice_witness :
    0 < 4 ∧ is_equivalence (string_compare (fun k : List Int => k)) ∧
    ∃ ht t2 : icl_hash_t (List Int) Nat,
      run_ops (icl_hash_create (fun k => k) 4 none none) sample_ops = some ht ∧
      (icl_hash_update_insert (icl_hash_update_insert (some ht) (some [101]) (some 10) none).ht
        (some [101]) (some 20) (some none)).ht = some t2 ∧
      matching t2.hash_key_compare [101] (t2.bucket (t2.hash_function [101] % t2.nbuckets))
        = [⟨[101], some 20⟩] ∧
      (icl_hash_update_insert (icl_hash_update_insert (some ht) (some [101]) (some 10) none).ht
        (some [101]) (some 20) (some none)).oldnode = some (some ⟨[101], some 10⟩) := by
  obtain ⟨ht, hrun, _⟩ := run_ops_inv sample_ops
    (⟨0, List.replicate 4 [], fun key => hash_pjw (fun k => k) (some key),
      string_compare (fun k => k)⟩ : icl_hash_t (List Int) Nat) (by decide)
    (string_compare_equivalence _) (create_inv (fun k => k) 4 none none _ rfl).1
  obtain ⟨t2, h1, h2, _, h4⟩ := C3_insert_twice (fun k : List Int => k) 4 (by decide) none none
    _ rfl (string_compare_equivalence _) sample_ops ht hrun [101] (some 10) (some 20) none none
  exact ⟨by decide, string_compare_equivalence _, ht, t2, hrun, h1, h2, h4⟩

/-! ## C4: lookup -/

/-- C4: on a table with `nbuckets > 0` and a non-null key, `icl_hash_find` reads
bucket `hash(key) % nbuckets` (an index inside the array) and returns the first
entry of that chain, in chain order, whose key compares equal to the key; it
returns `NULL` exactly when the chain holds no such entry; with a null table or
a null key it returns `NULL`. -/
theorem C4_find_first_match (ht : icl_hash_t K V) (key : K) (h : 0 < ht.nbuckets) :
    ht.hash_function key % ht.nbuckets < ht.nbuckets ∧
    (∀ e, icl_hash_find (some ht) (some key) = some e ↔
      ∃ pre post, ht.bucket (ht.hash_function key % ht.nbuckets) = pre ++ e :: post ∧
        ht.hash_key_compare e.key key = true ∧
        ∀ x ∈ pre, ht.hash_key_compare x.key key = false) ∧
    (icl_hash_find (some ht) (some key) = none ↔
      ∀ x ∈ ht.bucket (ht.hash_function key % ht.nbuckets),
        ht.hash_key_compare x.key key = false) ∧
    (∀ key' : Option K, icl_hash_find (none : Option (icl_hash_t K V)) key' = none) ∧
    (∀ ht' : Option (icl_hash_t K V), icl_hash_find ht' none = none) := by
  refine ⟨Nat.mod_lt _ h, ?_, ?_, ?_, ?_⟩
  · intro e
    exact find_loop_some ht.hash_key_compare key _ e
  · exact find_loop_none ht.hash_key_compare key _
  · intro key'
    rfl
  · intro ht'
    cases ht' <;> rfl

/-- C4 at `sample_table` and key 1: the chain of bucket 1 is walked past key 5
and the entry with key 1 is returned. -/
theorem C4_find_first_match_witness :
    icl_hash_find (some sample_table) (some 1) = some ⟨1, some 10⟩ ∧
    ∃ pre post, sample_table.bucket (sample_table.hash_function 1 % sample_table.nbuckets)
        = pre ++ (⟨1, some 10⟩ : icl_entry Nat Nat) :: post ∧
      ∀ x ∈ pre, sample_table.hash_key_compare x.key 1 = false := by
  have hfind : icl_hash_find (some sample_table) (some 1) = some ⟨1, some 10⟩ := by decide
  obtain ⟨pre, post, hsplit, _, hpre⟩ :=
    ((C4_find_first_match sample_table 1 (by decide)).2.1 ⟨1, some 10⟩).mp hfind
  exact ⟨hfind, pre, post, hsplit, hpre⟩

/-! ## C5: failing delete -/

/-- C5: when the table is null, or the key is null, or no entry of bucket
`hash(key) % nbuckets` compares equal to the key, `icl_hash_delete` returns -1,
calls no destructor, and hands back the table as it was (every chain and
`nentries` unchanged). -/
theorem C5_delete_failure (ht : Option (icl_hash_t K V)) (key : Option K)
    (free_key free_data : Bool)
    (h : ht = none ∨ key = none ∨
      ∃ t k, ht = some t ∧ key = some k ∧
        ∀ x ∈ t.bucket (t.hash_function k % t.nbuckets), t.hash_key_compare x.key k = false) :
    (icl_hash_delete ht key free_key free_data).ret = -1 ∧
    (icl_hash_delete ht key free_key free_data).calls = [] ∧
    (icl_hash_delete ht key free_key free_data).ht = ht := by
  rcases h with rfl | rfl | ⟨t, k, rfl, rfl, hno⟩
  · exact ⟨rfl, rfl, rfl⟩
  · cases ht <;> exact ⟨rfl, rfl, rfl⟩
  · have hd : delete_loop t.hash_key_compare k (t.bucket (t.hash_val k)) = none :=
      (delete_loop_none _ _ _).mpr hno
    simp [icl_hash_delete, hd]

/-- C5 at `sample_table` and key 9, which hashes to bucket 1 and matches
neither key 5 nor key 1. -/
theorem C5_delete_failure_witness :
    (icl_hash_delete (some sample_table) (some 9) true true).ret = -1 ∧
    (icl_hash_delete (some sample_table) (some 9) true true).calls = [] ∧
    (icl_hash_delete (some sample_table) (some 9) true true).ht = some sample_table :=
  C5_delete_failure (some sample_table) (some 9) true true
    (Or.inr (Or.inr ⟨sample_table, 9, rfl, rfl, by decide⟩))

/-! ## C6: successful delete -/

/-- C6: on a table with `nbuckets > 0`, when bucket `hash(key) % nbuckets` holds
at least one entry comparing equal to the key (possibly several),
`icl_hash_delete` returns 0; the chain `pre ++ e :: post`, where `e` is the
first matching entry, becomes `pre ++ post`; every other bucket is unchanged;
the number of buckets is unchanged; `nentries` goes down by exactly 1. -/
theorem C6_delete_first_match (ht : icl_hash_t K V) (key : K) (free_key free_data : Bool)
    (hn : 0 < ht.nbuckets)
    (hex : ∃ x ∈ ht.bucket (ht.hash_function key % ht.nbuckets),
      ht.hash_key_compare x.key key = true) :
    ∃ pre e post t,
      ht.bucket (ht.hash_function key % ht.nbuckets) = pre ++ e :: post ∧
      ht.hash_key_compare e.key key = true ∧
      (∀ x ∈ pre, ht.hash_key_compare x.key key = false) ∧
      (icl_hash_delete (some ht) (some key) free_key free_data).ret = 0 ∧
      (icl_hash_delete (some ht) (some key) free_key free_data).ht = some t ∧
      t.bucket (ht.hash_function key % ht.nbuckets) = pre ++ post ∧
      (∀ j, j ≠ ht.hash_function key % ht.nbuckets → t.bucket j = ht.bucket j) ∧
      t.nbuckets = ht.nbuckets ∧
      t.nentries = ht.nentries - 1 := by
  obtain ⟨pre, e, post, hsplit, he, hpre, hdel⟩ :=
    delete_loop_some ht.hash_key_compare key _ hex
  have hdel2 : delete_loop ht.hash_key_compare key (ht.bucket (ht.hash_val key))
      = some (e, pre ++ post) := hdel
  refine ⟨pre, e, post,
    ⟨ht.nentries - 1, ht.buckets.set (ht.hash_val key) (pre ++ post), ht.hash_function,
      ht.hash_key_compare⟩, hsplit, he, hpre, ?_, ?_, ?_, ?_, ?_, rfl⟩
  · simp [icl_hash_delete, hdel2]
  · simp [icl_hash_delete, hdel2]
  · exact bucket_set_same _ _ _ (hash_val_lt ht key hn)
  · intro j hj
    exact bucket_set_other _ _ _ _ (Ne.symm hj)
  · simp [icl_hash_t.nbuckets]

/-- C6 at `sample_dup_table` and key 1, which two entries of bucket 1 match:
the first of them (data 10) leaves the chain, the second (data 11) and the
entry with key 5 stay, the counter goes from 4 to 3. -/
theorem C6_delete_first_match_witness :
    (∃ x ∈ sample_dup_table.bucket
        (sample_dup_table.hash_function 1 % sample_dup_table.nbuckets),
      sample_dup_table.hash_key_compare x.key 1 = true) ∧
    (∃ t, (icl_hash_delete (some sample_dup_table) (some 1) true true).ht = some t ∧
      t.nentries = sample_dup_table.nentries - 1 ∧
      t.nbuckets = sample_dup_table.nbuckets) ∧
    (icl_hash_delete (some sample_dup_table) (some 1) true true).ht.map
        (fun t => (t.bucket 1, t.nentries))
      = some ([⟨5, some 50⟩, ⟨1, some 11⟩], 3) := by
  have hex : ∃ x ∈ sample_dup_table.bucket
      (sample_dup_table.hash_function 1 % sample_dup_table.nbuckets),
      sample_dup_table.hash_key_compare x.key 1 = true := ⟨⟨1, some 10⟩, by decide, by decide⟩
  obtain ⟨_, _, _, t, _, _, _, _, ht, _, _, hnb, hne⟩ :=
    C6_delete_first_match sample_dup_table 1 true true (by decide) hex
  exact ⟨hex, ⟨t, ht, hne, hnb⟩, by decide⟩

/-! ## C7: delete, then find -/

/-- C7: let `ht` be reached from `icl_hash_create` (`nbuckets > 0`, key
predicate an equivalence relation) by update_insert and delete calls, and let
`k` be a key that `icl_hash_find` finds in it. Then `icl_hash_delete(ht, k, ..)`
returns 0, afterwards `icl_hash_find(ht, k)` returns `NULL`, and for every key
`k2` that does not compare equal to `k` (same bucket or not)
`icl_hash_find(ht, k2)` returns what it returned before the delete. -/
theorem C7_delete_then_find (cstr : K → List Int) (n : Nat) (hn : 0 < n)
    (hash_function : Option (K → Nat)) (hash_key_compare : Option (K → K → Bool))
    (t0 : icl_hash_t K V)
    (hcreate : icl_hash_create cstr n hash_function hash_key_compare = some t0)
    (heq : is_equivalence t0.hash_key_compare) (ops : List (table_op K V))
    (ht : icl_hash_t K V) (hreach : run_ops (some t0) ops = some ht)
    (k : K) (free_key free_data : Bool)
    (hpresent : icl_hash_find (some ht) (some k) ≠ none) :
    (icl_hash_delete (some ht) (some k) free_key free_data).ret = 0 ∧
    icl_hash_find (icl_hash_delete (some ht) (some k) free_key free_data).ht (some k) = none ∧
    ∀ k2, ht.hash_key_compare k2 k = false →
      icl_hash_find (icl_hash_delete (some ht) (some k) free_key free_data).ht (some k2)
        = icl_hash_find (some ht) (some k2) := by
  obtain ⟨hinv0, hnb0⟩ := create_inv cstr n hash_function hash_key_compare t0 hcreate
  obtain ⟨t, hrun, hinv, hcmp, _, hnb⟩ :=
    run_ops_inv ops t0 (by rw [hnb0]; exact hn) heq hinv0
  rw [hreach, Option.some.injEq] at hrun
  subst hrun
  have hpos : 0 < ht.nbuckets := by rw [hnb, hnb0]; exact hn
  have heqt : is_equivalence ht.hash_key_compare := by rw [hcmp]; exact heq
  have hlt := hash_val_lt ht k hpos
  have hnd : no_dup ht.hash_key_compare (ht.bucket (ht.hash_val k)) :=
    hinv.1 _ (bucket_mem ht.buckets _ hlt)
  have hex : ∃ x ∈ ht.bucket (ht.hash_val k), ht.hash_key_compare x.key k = true := by
    by_contra hcon
    apply hpresent
    apply (find_loop_none ht.hash_key_compare k _).mpr
    intro x hx
    cases hxk : ht.hash_key_compare x.key k with
    | false => rfl
    | true => exact absurd ⟨x, hx, hxk⟩ hcon
  obtain ⟨pre, e, post, hsplit, he, hpre, hdel⟩ := delete_loop_some ht.hash_key_compare k _ hex
  rw [hsplit] at hnd
  have hpost := no_dup_after_match _ heqt k pre post e hnd he
  refine ⟨by simp [icl_hash_delete, hdel], ?_, ?_⟩
  · have hres : (icl_hash_delete (some ht) (some k) free_key free_data).ht
        = some ⟨ht.nentries - 1, ht.buckets.set (ht.hash_val k) (pre ++ post),
            ht.hash_function, ht.hash_key_compare⟩ := by
      simp [icl_hash_delete, hdel]
    rw [hres]
    simp only [icl_hash_find, icl_hash_t.bucket, icl_hash_t.hash_val, icl_hash_t.nbuckets,
      List.length_set] at hlt ⊢
    rw [bucket_set_same _ _ _ hlt]
    apply (find_loop_none ht.hash_key_compare k _).mpr
    intro x hx
    rcases List.mem_append.mp hx with hx | hx
    · exact hpre x hx
    · exact hpost x hx
  · intro k2 hk2
    have hne : ht.hash_key_compare k k2 = false := by
      cases hkk : ht.hash_key_compare k k2 with
      | false => rfl
      | true =>
        have := heqt.2.1 _ _ hkk
        rw [hk2] at this
        exact absurd this (by simp)
    obtain ⟨t, ht1, _, _, hfind⟩ := find_after_delete ht hpos heqt k k2 hne free_key free_data
    rw [ht1]
    exact hfind

/-- C7 on the table reached by `sample_ops` from the 4-bucket table with the
default string predicate: that table holds "a" in bucket 1 and "b" in bucket 2;
"a" is deleted. -/
theorem C7_delete_then_find_witness :
    0 < 4 ∧ is_equivalence (string_compare (fun k : List Int => k)) ∧
    ∃ ht : icl_hash_t (List Int) Nat,
      run_ops (icl_hash_create (fun k => k) 4 none none) sample_ops = some ht ∧
      icl_hash_find (some ht) (some [97]) ≠ none ∧
      (icl_hash_delete (some ht) (some [97]) true true).ret = 0 ∧
      icl_hash_find (icl_hash_delete (some ht) (some [97]) true true).ht (some [97]) = none := by
  obtain ⟨ht, hrun, _⟩ := run_ops_inv sample_ops
    (⟨0, List.replicate 4 [], fun key => hash_pjw (fun k => k) (some key),
      string_compare (fun k => k)⟩ : icl_hash_t (List Int) Nat) (by decide)
    (string_compare_equivalence _) (create_inv (fun k => k) 4 none none _ rfl).1
  have hpresent : icl_hash_find (some ht) (some [97]) ≠ none := by
    rw [← hrun]
    decide
  obtain ⟨h1, h2, _⟩ := C7_delete_then_find (fun k : List Int => k) 4 (by decide) none none
    _ rfl (string_compare_equivalence _) sample_ops ht hrun [97] true true hpresent
  exact ⟨by decide, string_compare_equivalence _, ht, hrun, hpresent, h1, h2⟩

/-! ## C8: the hash override -/

/-- C8: `icl_hash_create` called with 4 buckets and a non-null hash function
that maps every key to 0. The created table does not use the override: its
hash of the key "a" is `hash_pjw("a") = 97`, and `icl_hash_update_insert` of
"a" puts the entry in bucket `97 % 4 = 1`, not in bucket 0. -/
theorem C8_create_ignores_hash_override :
    ∃ t t' : icl_hash_t (List Int) Nat,
      icl_hash_create (fun k => k) 4 (some (fun _ => 0)) none = some t ∧
      t.hash_function [97] = 97 ∧
      (icl_hash_update_insert (some t) (some [97]) (some 7) none).ht = some t' ∧
      t'.bucket 0 = [] ∧ t'.bucket 1 = [⟨[97], some 7⟩] := by
  refine ⟨_, _, rfl, by decide, rfl, by decide, by decide⟩

/-! ## C9: creation -/

/-- C9: for `n > 0`, `icl_hash_create(n, ...)` returns a table with
`nbuckets = n`, every one of the `n` chains empty and `nentries = 0`;
`icl_hash_find` on that table returns `NULL` for every key. -/
theorem C9_create_empty (cstr : K → List Int) (n : Nat) (hn : 0 < n)
    (hash_function : Option (K → Nat)) (hash_key_compare : Option (K → K → Bool)) :
    ∃ t : icl_hash_t K V,
      icl_hash_create cstr n hash_function hash_key_compare = some t ∧
      t.nbuckets = n ∧ 0 < t.nbuckets ∧ (∀ i, i < n → t.bucket i = []) ∧ t.nentries = 0 ∧
      ∀ key, icl_hash_find (some t) key = none := by
  refine ⟨_, rfl, ?_, ?_, ?_, rfl, ?_⟩
  · simp [icl_hash_t.nbuckets]
  · simpa [icl_hash_t.nbuckets] using hn
  · intro i hi
    simp [icl_hash_t.bucket, List.getD_eq_getElem?_getD, List.getElem?_replicate, hi]
  · intro key
    cases key with
    | none => rfl
    | some key =>
      have hlt : hash_pjw cstr (some key) % n < n := Nat.mod_lt _ hn
      simp [icl_hash_find, icl_hash_t.bucket, icl_hash_t.hash_val, icl_hash_t.nbuckets,
        List.getD_eq_getElem?_getD, List.getElem?_replicate, find_loop, hlt]

/-- C9 at `n = 4` with string keys, no overrides. -/
theorem C9_create_empty_witness :
    0 < 4 ∧ ∃ t : icl_hash_t (List Int) Nat,
      icl_hash_create (fun k => k) 4 none none = some t ∧
      t.nbuckets = 4 ∧ 0 < t.nbuckets ∧ (∀ i, i < 4 → t.bucket i = []) ∧ t.nentries = 0 ∧
      ∀ key, icl_hash_find (some t) key = none :=
  ⟨by decide, C9_create_empty (fun k => k) 4 (by decide) none none⟩

/-! ## C10: the entries visited by the scan -/

theorem visited_append (xs ys : List (scan_event K V)) :
    visited (xs ++ ys) = visited xs ++ visited ys := by
  induction xs with
  | nil => rfl
  | cons x xs ih => cases x <;> simp [visited, ih]

theorem visit_until_chain {A : Type} (vfun : icl_entry K V → A → Int × A)
    (chain rest : List (icl_entry K V)) (argv : A) :
    visit_until vfun (chain ++ rest) argv =
      visited (apply_until_chain vfun chain argv).1 ++
        (if (apply_until_chain vfun chain argv).2.1 then []
         else visit_until vfun rest (apply_until_chain vfun chain argv).2.2) := by
  induction chain generalizing argv with
  | nil => simp [apply_until_chain, visited]
  | cons corr next ih =>
    by_cases hr : (vfun corr argv).1 = 0
    · simp [apply_until_chain, visit_until, visited, hr, ih]
    · simp [apply_until_chain, visit_until, visited, hr]

theorem visited_buckets {A : Type} (hash_lock : Int → Nat) (vfun : icl_entry K V → A → Int × A)
    (buckets : List (List (icl_entry K V))) (i : Int) (argv : A) :
    visited (apply_until_buckets hash_lock vfun i buckets argv).1 =
      visit_until vfun buckets.flatten argv := by
  induction buckets generalizing i argv with
  | nil => simp [apply_until_buckets, visited, visit_until]
  | cons bucket buckets ih =>
    rw [List.flatten_cons, visit_until_chain]
    by_cases hf : (apply_until_chain vfun bucket argv).2.1 = true
    · simp [apply_until_buckets, hf, visited_append]
      split <;> simp [visited]
    · simp [apply_until_buckets, hf, visited_append, ih]
      split <;> simp [visited]

theorem visit_until_all_zero {A : Type} (vfun : icl_entry K V → A → Int × A)
    (h : ∀ e a, (vfun e a).1 = 0) (es : List (icl_entry K V)) (argv : A) :
    visit_until vfun es argv = es := by
  induction es generalizing argv with
  | nil => rfl
  | cons e es ih => simp [visit_until, h, ih]

theorem visit_until_first_match {A : Type} (vfun : icl_entry K V → A → Int × A)
    (p : icl_entry K V → Bool) (hp : ∀ e a, (vfun e a).1 ≠ 0 ↔ p e = true)
    (pre post : List (icl_entry K V)) (e : icl_entry K V)
    (hpre : ∀ x ∈ pre, p x = false) (he : p e = true) (argv : A) :
    visit_until vfun (pre ++ e :: post) argv = pre ++ [e] := by
  induction pre generalizing argv with
  | nil =>
    have : (vfun e argv).1 ≠ 0 := (hp e argv).mpr he
    simp [visit_until, this]
  | cons x pre ih =>
    have hx : ¬ (vfun x argv).1 ≠ 0 := by
      rw [hp x argv, hpre x (by simp)]
      simp
    have ih2 := ih (fun y hy => hpre y (List.mem_cons_of_mem _ hy)) (vfun x argv).2
    have hstep : visit_until vfun (x :: (pre ++ e :: post)) argv
        = x :: visit_until vfun (pre ++ e :: post) (vfun x argv).2 := by
      simp only [visit_until, hx, if_false]
    rw [List.cons_append, hstep, ih2, List.cons_append]

/-- C10: for every table, lock partition, predicate and argument vector, the
entries on which `icl_hash_apply_until` calls the predicate are the
concatenation of the bucket chains in bucket-index order, each chain in chain
order, cut off right after the first entry on which the predicate returns
nonzero. With a predicate that always returns 0 the calls are exactly that
concatenation (every entry once). With a predicate whose verdict depends on
the entry only, if `e` is the first entry of the concatenation that it matches,
the calls are the entries before `e` followed by `e`, and nothing after. -/
theorem C10_apply_until_visits {A : Type} (hash_lock : Int → Nat) (tab : icl_hash_t K V)
    (vfun : icl_entry K V → A → Int × A) (argv : A) :
    visited (icl_hash_apply_until hash_lock tab vfun argv).1
      = visit_until vfun tab.buckets.flatten argv ∧
    ((∀ e a, (vfun e a).1 = 0) →
      visited (icl_hash_apply_until hash_lock tab vfun argv).1 = tab.buckets.flatten) ∧
    (∀ (p : icl_entry K V → Bool) (pre post : List (icl_entry K V)) (e : icl_entry K V),
      (∀ x a, (vfun x a).1 ≠ 0 ↔ p x = true) →
      tab.buckets.flatten = pre ++ e :: post →
      (∀ x ∈ pre, p x = false) → p e = true →
      visited (icl_hash_apply_until hash_lock tab vfun argv).1 = pre ++ [e]) := by
  have hmain : visited (icl_hash_apply_until hash_lock tab vfun argv).1
      = visit_until vfun tab.buckets.flatten argv :=
    visited_buckets hash_lock vfun tab.buckets 0 argv
  refine ⟨hmain, ?_, ?_⟩
  · intro hz
    rw [hmain, visit_until_all_zero vfun hz]
  · intro p pre post e hp hsplit hpre he
    rw [hmain, hsplit, visit_until_first_match vfun p hp pre post e hpre he]

/-- C10 at `sample_table` with `sample_vfun`, which matches key 1: the scan
calls the predicate on the entries with keys 5 and 1 of bucket 1 and never
reaches the entry with key 2 of bucket 2. -/
theorem C10_apply_until_visits_witness :
    visited (icl_hash_apply_until sample_hash_lock sample_table sample_vfun 0).1
      = [⟨5, some 50⟩, ⟨1, some 10⟩] := by
  have h := (C10_apply_until_visits sample_hash_lock sample_table sample_vfun 0).2.2
    (fun e => decide (e.key = 1)) [⟨5, some 50⟩] [⟨2, none⟩] ⟨1, some 10⟩
    (by intro x a; simp [sample_vfun]) (by decide) (by decide) (by decide)
  simpa using h

/-! ## C20: the range of hash_pjw -/

theorem HIGH_BITS_eq : HIGH_BITS = 0xF0000000 := by decide

theorem low_mask_eq : (2 ^ 32 - 1) ^^^ HIGH_BITS = 0x0FFFFFFF := by decide

theorem lt_of_high_bits_zero (x : Nat) (hx : x < 2 ^ 32) (h : x &&& HIGH_BITS = 0) :
    x < 2 ^ 28 := by
  apply Nat.lt_pow_two_of_testBit
  intro i hi
  by_cases h32 : 32 ≤ i
  · exact Nat.testBit_lt_two_pow (lt_of_lt_of_le hx (Nat.pow_le_pow_right (by decide) h32))
  · have hb : (x &&& HIGH_BITS).testBit i = false := by
      rw [h]
      exact Nat.zero_testBit i
    rw [Nat.testBit_and] at hb
    have hH : HIGH_BITS.testBit i = true := by
      rw [HIGH_BITS_eq]
      have hcases : i = 28 ∨ i = 29 ∨ i = 30 ∨ i = 31 := by omega
      rcases hcases with rfl | rfl | rfl | rfl <;> decide
    rw [hH, Bool.and_true] at hb
    exact hb

/-- One iteration of the loop of `hash_pjw` leaves a value below `2^28`. -/
theorem hash_pjw_step_lt (hash_value : Nat) (c : Int) :
    (if ((((hash_value <<< ONE_EIGHTH : Nat) : Int) + c) % (2 ^ 32 : Int)).toNat &&& HIGH_BITS ≠ 0
      then
        (((((hash_value <<< ONE_EIGHTH : Nat) : Int) + c) % (2 ^ 32 : Int)).toNat ^^^
          ((((((hash_value <<< ONE_EIGHTH : Nat) : Int) + c) % (2 ^ 32 : Int)).toNat &&& HIGH_BITS)
            >>> THREE_QUARTERS)) &&& ((2 ^ 32 - 1) ^^^ HIGH_BITS)
      else ((((hash_value <<< ONE_EIGHTH : Nat) : Int) + c) % (2 ^ 32 : Int)).toNat) < 2 ^ 28 := by
  have hx : ((((hash_value <<< ONE_EIGHTH : Nat) : Int) + c) % (2 ^ 32 : Int)).toNat < 2 ^ 32 := by
    have h0 : 0 ≤ (((hash_value <<< ONE_EIGHTH : Nat) : Int) + c) % (2 ^ 32 : Int) :=
      Int.emod_nonneg _ (by norm_num)
    have h1 : (((hash_value <<< ONE_EIGHTH : Nat) : Int) + c) % (2 ^ 32 : Int) < (2 ^ 32 : Int) :=
      Int.emod_lt_of_pos _ (by norm_num)
    rw [Int.toNat_lt h0]
    exact_mod_cast h1
  split
  · rw [low_mask_eq]
    exact lt_of_le_of_lt Nat.and_le_right (by norm_num)
  · next hz =>
    exact lt_of_high_bits_zero _ hx (by simpa using hz)

theorem hash_pjw_loop_lt (datum : List Int) (hash_value : Nat) (h : hash_value < 2 ^ 28) :
    hash_pjw_loop hash_value datum < 2 ^ 28 := by
  induction datum generalizing hash_value with
  | nil => simpa [hash_pjw_loop] using h
  | cons c datum ih =>
    unfold hash_pjw_loop
    by_cases hc : c = 0
    · simpa [hc] using h
    · simp only [hc, if_false]
      exact ih _ (hash_pjw_step_lt hash_value c)

/-- C20: in 32-bit unsigned arithmetic (`ONE_EIGHTH = 4`, `THREE_QUARTERS = 24`,
`HIGH_BITS = 0xF0000000`, shift and addition modulo `2^32`) `hash_pjw` returns,
for every key and whatever chars lie at it, a value strictly below `2^28` (the
top four bits are zero); for the empty string and for a null key it returns 0. -/
theorem C20_hash_pjw_below_2_pow_28 (cstr : K → List Int) :
    ONE_EIGHTH = 4 ∧ THREE_QUARTERS = 24 ∧ HIGH_BITS = 0xF0000000 ∧
    (∀ key : Option K, hash_pjw cstr key < 2 ^ 28) ∧
    (∀ key : Option K, hash_pjw cstr key &&& HIGH_BITS = 0) ∧
    (∀ key : K, cstr key = [] → hash_pjw cstr (some key) = 0) ∧
    hash_pjw cstr none = 0 := by
  have hlt : ∀ key : Option K, hash_pjw cstr key < 2 ^ 28 := by
    intro key
    cases key with
    | none => simp [hash_pjw]
    | some datum => exact hash_pjw_loop_lt (cstr datum) 0 (by norm_num)
  refine ⟨by decide, by decide, HIGH_BITS_eq, hlt, ?_, ?_, rfl⟩
  · intro key
    apply Nat.eq_of_testBit_eq
    intro i
    rw [Nat.testBit_and, Nat.zero_testBit]
    by_cases hi : 28 ≤ i
    · have : (hash_pjw cstr key).testBit i = false :=
        Nat.testBit_lt_two_pow (lt_of_lt_of_le (hlt key) (Nat.pow_le_pow_right (by decide) hi))
      rw [this, Bool.false_and]
    · have : HIGH_BITS.testBit i = false := by
        rw [HIGH_BITS_eq]
        have hi2 : i < 28 := by omega
        interval_cases i <;> decide
      rw [this, Bool.and_false]
  · intro key hkey
    simp [hash_pjw, hkey, hash_pjw_loop]

/-! ## C18: lock discipline of the scan -/

theorem locks_balanced_calls {A : Type} (vfun : icl_entry K V → A → Int × A)
    (chain : List (icl_entry K V)) (argv : A) (held : Option Nat)
    (rest : List (scan_event K V)) :
    locks_balanced held ((apply_until_chain vfun chain argv).1 ++ rest)
      = locks_balanced held rest := by
  induction chain generalizing argv with
  | nil => simp [apply_until_chain]
  | cons corr next ih =>
    by_cases hr : (vfun corr argv).1 = 0
    · simp [apply_until_chain, hr, locks_balanced, ih]
    · simp [apply_until_chain, hr, locks_balanced]

theorem locks_balanced_buckets {A : Type} (hash_lock : Int → Nat)
    (vfun : icl_entry K V → A → Int × A) (buckets : List (List (icl_entry K V))) (i : Int)
    (argv : A) :
    locks_balanced none (apply_until_buckets hash_lock vfun i buckets argv).1 = true := by
  induction buckets generalizing i argv with
  | nil => simp [apply_until_buckets, locks_balanced]
  | cons bucket buckets ih =>
    have hrest := ih (i + 1) (apply_until_chain vfun bucket argv).2.2
    by_cases hcond : hash_lock i = hash_lock (i - 1)
    · by_cases hf : (apply_until_chain vfun bucket argv).2.1 = true
      · have := locks_balanced_calls vfun bucket argv none []
        simp only [List.append_nil] at this
        simp [apply_until_buckets, hcond, hf, this, locks_balanced]
      · simp [apply_until_buckets, hcond, hf, locks_balanced_calls, hrest]
    · by_cases hf : (apply_until_chain vfun bucket argv).2.1 = true
      · simp [apply_until_buckets, hcond, hf, locks_balanced, locks_balanced_calls]
      · simp [apply_until_buckets, hcond, hf, locks_balanced, locks_balanced_calls, hrest]

/-- C18: for every table, partition function `hash_lock`, predicate and argument
vector, the lock events of `icl_hash_apply_until` obey the lock discipline: a
lock is acquired only while no lock is held, each release names the lock that
is held, and no lock is held when the function returns. This includes the runs
in which the predicate matches inside the bucket whose lock was acquired. -/
theorem C18_apply_until_lock_discipline {A : Type} (hash_lock : Int → Nat)
    (tab : icl_hash_t K V) (vfun : icl_entry K V → A → Int × A) (argv : A) :
    locks_balanced none (icl_hash_apply_until hash_lock tab vfun argv).1 = true :=
  locks_balanced_buckets hash_lock vfun tab.buckets 0 argv

/-! ## C11: one acquire per run of buckets -/

/-- C11: on `sample_table` (4 buckets) with the partition `sample_hash_lock`
(C division by 2: the index -1 and the buckets 0 and 1 map to lock 0, the
buckets 2 and 3 to lock 1) and a predicate that always returns 0, the scan
walks the buckets 0 and 1 without any event on lock 0: the test of line 287
compares bucket 0 with the index -1. Lock 1 is acquired and released once. -/
theorem C11_first_run_not_locked :
    sample_hash_lock (-1) = 0 ∧ sample_hash_lock 0 = 0 ∧ sample_hash_lock 1 = 0 ∧
    sample_hash_lock 2 = 1 ∧ sample_hash_lock 3 = 1 ∧
    (icl_hash_apply_until sample_hash_lock sample_table zero_vfun ()).1
      = [scan_event.call ⟨5, some 50⟩, scan_event.call ⟨1, some 10⟩, scan_event.lock 1,
         scan_event.call ⟨2, none⟩, scan_event.unlock 1] := by
  decide

/-! ## C12: the lock is held while its run is walked -/

/-- C12: on `sample_table` (bucket 0 empty, bucket 1 with the keys 5 and 1,
bucket 2 with the key 2) with the partition `shifted_hash_lock` (buckets 0 and
1 map to lock 1, buckets 2 and 3 to lock 2) and a predicate that always returns
0, lock 1 is released at the end of the iteration for bucket 0, and the two
predicate calls on the entries of bucket 1 are made while no lock is held. -/
theorem C12_lock_released_inside_run :
    shifted_hash_lock 0 = 1 ∧ shifted_hash_lock 1 = 1 ∧
    shifted_hash_lock 2 = 2 ∧ shifted_hash_lock 3 = 2 ∧
    (icl_hash_apply_until shifted_hash_lock sample_table zero_vfun ()).1
      = [scan_event.lock 1, scan_event.unlock 1,
         scan_event.call ⟨5, some 50⟩, scan_event.call ⟨1, some 10⟩,
         scan_event.lock 2, scan_event.call ⟨2, none⟩, scan_event.unlock 2] ∧
    calls_with_lock none (icl_hash_apply_until shifted_hash_lock sample_table zero_vfun ()).1
      = [(none, ⟨5, some 50⟩), (none, ⟨1, some 10⟩), (some 2, ⟨2, none⟩)] := by
  decide

/-! ## C13: destructor calls of the teardown -/

theorem key_calls_append (xs ys : List (free_call K V)) :
    key_calls (xs ++ ys) = key_calls xs ++ key_calls ys := by
  induction xs with
  | nil => rfl
  | cons x xs ih => cases x <;> simp [key_calls, ih]

theorem data_calls_append (xs ys : List (free_call K V)) :
    data_calls (xs ++ ys) = data_calls xs ++ data_calls ys := by
  induction xs with
  | nil => rfl
  | cons x xs ih => cases x <;> simp [data_calls, ih]

theorem key_calls_destroy_chain (chain : List (icl_entry K V)) :
    key_calls (destroy_chain true true chain) = chain.map (fun e => e.key) := by
  induction chain with
  | nil => rfl
  | cons curr next ih =>
    cases hd : curr.data <;>
      simp [destroy_chain, destructor_calls, key_calls_append, key_calls, hd, ih]

theorem data_calls_destroy_chain (chain : List (icl_entry K V)) :
    data_calls (destroy_chain true true chain) = chain.filterMap (fun e => e.data) := by
  induction chain with
  | nil => rfl
  | cons curr next ih =>
    cases hd : curr.data <;>
      simp [destroy_chain, destructor_calls, data_calls_append, data_calls, hd, ih,
        List.filterMap_cons]

theorem key_calls_destroy_buckets (buckets : List (List (icl_entry K V))) :
    key_calls (destroy_buckets true true buckets) = buckets.flatten.map (fun e => e.key) := by
  induction buckets with
  | nil => rfl
  | cons bucket buckets ih =>
    simp [destroy_buckets, key_calls_append, key_calls_destroy_chain, ih]

theorem data_calls_destroy_buckets (buckets : List (List (icl_entry K V))) :
    data_calls (destroy_buckets true true buckets)
      = buckets.flatten.filterMap (fun e => e.data) := by
  induction buckets with
  | nil => rfl
  | cons bucket buckets ih =>
    simp [destroy_buckets, data_calls_append, data_calls_destroy_chain, ih,
      List.filterMap_append]

theorem filterMap_data_length (es : List (icl_entry K V)) (h : ∀ e ∈ es, e.data ≠ none) :
    (es.filterMap (fun e => e.data)).length = es.length := by
  induction es with
  | nil => rfl
  | cons e es ih =>
    have he := h e (by simp)
    have hrest := ih (fun x hx => h x (List.mem_cons_of_mem _ hx))
    cases hd : e.data with
    | none => exact absurd hd he
    | some d => simp [List.filterMap_cons, hd, hrest]

/-- C13 as stated fails on `sample_table`, which holds 3 entries, one of them
(key 2) with a null data pointer: with both destructors non-null the key
destructor is called 3 times, the value destructor only twice. -/
theorem C13_value_destructor_skips_null_data :
    count_entries sample_table = 3 ∧
    key_calls (icl_hash_destroy (some sample_table) true true).calls = [5, 1, 2] ∧
    data_calls (icl_hash_destroy (some sample_table) true true).calls = [50, 10] ∧
    (data_calls (icl_hash_destroy (some sample_table) true true).calls).length
      ≠ count_entries sample_table := by
  decide

/-- C13, with the null-data guard of line 228: for every table and non-null key
and value destructors,
`icl_hash_destroy` returns 0; the key destructor is called exactly once on the
key of each entry, in bucket then chain order, so as many times as the table
holds entries; the value destructor is called exactly once on the data of each
entry whose data pointer is non-null and on nothing else, so as many times as
the table holds entries when no entry has null data. For every table
reference and every pair of destructors the return value is -1 exactly when
the table reference is null. -/
theorem C13_destroy_destructor_calls (ht : icl_hash_t K V) :
    (icl_hash_destroy (some ht) true true).ret = 0 ∧
    key_calls (icl_hash_destroy (some ht) true true).calls
      = ht.buckets.flatten.map (fun e => e.key) ∧
    (key_calls (icl_hash_destroy (some ht) true true).calls).length = count_entries ht ∧
    data_calls (icl_hash_destroy (some ht) true true).calls
      = ht.buckets.flatten.filterMap (fun e => e.data) ∧
    ((∀ e ∈ ht.buckets.flatten, e.data ≠ none) →
      (data_calls (icl_hash_destroy (some ht) true true).calls).length = count_entries ht) ∧
    (∀ (t : Option (icl_hash_t K V)) (free_key free_data : Bool),
      (icl_hash_destroy t free_key free_data).ret = -1 ↔ t = none) := by
  have hk : key_calls (icl_hash_destroy (some ht) true true).calls
      = ht.buckets.flatten.map (fun e => e.key) := key_calls_destroy_buckets ht.buckets
  have hd : data_calls (icl_hash_destroy (some ht) true true).calls
      = ht.buckets.flatten.filterMap (fun e => e.data) := data_calls_destroy_buckets ht.buckets
  have hlen : ht.buckets.flatten.length = count_entries ht := by
    simp [count_entries, List.length_flatten]
  refine ⟨rfl, hk, ?_, hd, ?_, ?_⟩
  · rw [hk, List.length_map, hlen]
  · intro hall
    rw [hd, filterMap_data_length _ hall, hlen]
  · intro t free_key free_data
    cases t with
    | none => simp [icl_hash_destroy]
    | some t => simp [icl_hash_destroy]

/-- C13, with the null-data guard, at `sample_dup_table` (4 buckets, 4 entries, the entry with
key 2 has a null data pointer). -/
theorem C13_destroy_destructor_calls_witness :
    (icl_hash_destroy (some sample_dup_table) true true).ret = 0 ∧
    key_calls (icl_hash_destroy (some sample_dup_table) true true).calls = [5, 1, 1, 2] ∧
    data_calls (icl_hash_destroy (some sample_dup_table) true true).calls = [50, 10, 11] := by
  obtain ⟨hret, hk, _, hd, _, _⟩ := C13_destroy_destructor_calls sample_dup_table
  refine ⟨hret, ?_, ?_⟩
  · rw [hk]
    decide
  · rw [hd]
    decide

/-! ## C14: several matching entries in the target chain -/

/-- C14: a one-bucket table is created with the key predicate
`shorter_or_equal`; the keys "bb" and "a" are inserted, which leaves the
chain "a", "bb" and `nentries = 2`. Both entries compare equal to the key
"ccc" and they are adjacent. `icl_hash_update_insert` of "ccc" with a slot
leaves the chain "ccc", "bb": the entry "bb" is still linked, it compares equal
to the key next to the new entry, it is also what the slot holds, and
`nentries` is 1 for a chain of 2 entries. -/
theorem C14_adjacent_match_stays_linked :
    (run_ops (icl_hash_create (fun k => k) 1 none (some shorter_or_equal))
        sample_ops_adjacent).map (fun t => (t.bucket 0, t.nentries))
      = some ([⟨[97], some 1⟩, ⟨[98, 98], some 2⟩], 2) ∧
    matching shorter_or_equal [99, 99, 99]
        ([⟨[97], some 1⟩, ⟨[98, 98], some 2⟩] : List (icl_entry (List Int) Nat))
      = [⟨[97], some 1⟩, ⟨[98, 98], some 2⟩] ∧
    (icl_hash_update_insert
        (run_ops (icl_hash_create (fun k => k) 1 none (some shorter_or_equal))
          sample_ops_adjacent)
        (some [99, 99, 99]) (some 3) (some none)).ht.map
        (fun t => (t.bucket 0, t.nentries,
          matching t.hash_key_compare [99, 99, 99] (t.bucket 0)))
      = some ([⟨[99, 99, 99], some 3⟩, ⟨[98, 98], some 2⟩], 1,
          [⟨[99, 99, 99], some 3⟩, ⟨[98, 98], some 2⟩]) ∧
    (icl_hash_update_insert
        (run_ops (icl_hash_create (fun k => k) 1 none (some shorter_or_equal))
          sample_ops_adjacent)
        (some [99, 99, 99]) (some 3) (some none)).oldnode
      = some (some ⟨[98, 98], some 2⟩) := by
  decide

/-! ## C15: what an insertion changes -/

/-- The scan loop of the insertion on a chain with at most one matching entry:
either nothing matches and nothing changes, or the one match is unlinked. -/
theorem update_insert_loop_at_most_one (cmp : K → K → Bool) (key : K)
    (chain : List (icl_entry K V)) (hone : (matching cmp key chain).length ≤ 1) (n : Int)
    (s : Option (Option (icl_entry K V))) :
    (matching cmp key chain = [] ∧
      chain.filter (fun e => !cmp e.key key) = chain ∧
      update_insert_loop cmp key prev_state.null chain n s = (chain, n, s)) ∨
    (∃ e, matching cmp key chain = [e] ∧
      update_insert_loop cmp key prev_state.null chain n s
        = (chain.filter (fun e => !cmp e.key key), n - 1, s.map (fun _ => some e))) := by
  cases hf : find_loop cmp key chain with
  | none =>
    have hno := (find_loop_none cmp key chain).mp hf
    refine Or.inl ⟨?_, ?_, update_insert_loop_no_match cmp key chain hno _ n s⟩
    · unfold matching
      rw [List.filter_eq_nil_iff]
      intro x hx
      simp [hno x hx]
    · rw [List.filter_eq_self]
      intro x hx
      simp [hno x hx]
  | some e =>
    obtain ⟨pre, post, hsplit, he, hpre⟩ := (find_loop_some cmp key chain e).mp hf
    subst hsplit
    have hmpre : matching cmp key pre = [] := by
      unfold matching
      rw [List.filter_eq_nil_iff]
      intro x hx
      simp [hpre x hx]
    have hm : matching cmp key (pre ++ e :: post) = e :: matching cmp key post := by
      have := hmpre
      unfold matching at this ⊢
      rw [List.filter_append, this, List.filter_cons]
      simp [he]
    have hmpost : matching cmp key post = [] := by
      rw [hm] at hone
      exact List.eq_nil_of_length_eq_zero (by simpa using hone)
    have hpost : ∀ x ∈ post, cmp x.key key = false := by
      intro x hx
      cases hxk : cmp x.key key with
      | false => rfl
      | true =>
        have hmem : x ∈ matching cmp key post := by
          unfold matching
          exact List.mem_filter.mpr ⟨hx, hxk⟩
        rw [hmpost] at hmem
        exact absurd hmem (by simp)
    have hfilter : (pre ++ e :: post).filter (fun e => !cmp e.key key) = pre ++ post := by
      rw [List.filter_append, List.filter_cons]
      have h1 : pre.filter (fun e => !cmp e.key key) = pre := by
        rw [List.filter_eq_self]
        intro x hx
        simp [hpre x hx]
      have h2 : post.filter (fun e => !cmp e.key key) = post := by
        rw [List.filter_eq_self]
        intro x hx
        simp [hpost x hx]
      simp [he, h1, h2]
    refine Or.inr ⟨e, by rw [hm, hmpost], ?_⟩
    rw [hfilter]
    exact update_insert_loop_single cmp key pre post e hpre he hpost _ (by simp) n s

/-- C15: on a table with `nbuckets > 0` in which at most one entry of bucket
`hash(k) % nbuckets` compares equal to the non-null key `k`,
`icl_hash_update_insert(ht, k, v, _)` returns the new entry and makes it the
head of that bucket, followed by the previous chain without the matching entry,
the other entries in their original order; every other bucket is unchanged, the
number of buckets is unchanged, and `nentries` is unchanged when an entry was
replaced and larger by 1 otherwise. -/
theorem C15_update_insert_frame (ht : icl_hash_t K V) (k : K) (v : Option V)
    (oldnode : Option (Option (icl_entry K V))) (hn : 0 < ht.nbuckets)
    (hone : (matching ht.hash_key_compare k
      (ht.bucket (ht.hash_function k % ht.nbuckets))).length ≤ 1) :
    ∃ t,
      (icl_hash_update_insert (some ht) (some k) v oldnode).ht = some t ∧
      (icl_hash_update_insert (some ht) (some k) v oldnode).ret = some ⟨k, v⟩ ∧
      t.bucket (ht.hash_function k % ht.nbuckets)
        = ⟨k, v⟩ :: (ht.bucket (ht.hash_function k % ht.nbuckets)).filter
            (fun e => !ht.hash_key_compare e.key k) ∧
      (∀ j, j ≠ ht.hash_function k % ht.nbuckets → t.bucket j = ht.bucket j) ∧
      t.nbuckets = ht.nbuckets ∧
      (matching ht.hash_key_compare k (ht.bucket (ht.hash_function k % ht.nbuckets)) = [] →
        t.nentries = ht.nentries + 1) ∧
      (matching ht.hash_key_compare k (ht.bucket (ht.hash_function k % ht.nbuckets)) ≠ [] →
        t.nentries = ht.nentries) := by
  have hlt := hash_val_lt ht k hn
  have hone2 : (matching ht.hash_key_compare k (ht.bucket (ht.hash_val k))).length ≤ 1 := hone
  rcases update_insert_loop_at_most_one ht.hash_key_compare k _ hone2 ht.nentries oldnode with
    ⟨hm, hfilter, hloop⟩ | ⟨e, hm, hloop⟩
  · have hm2 : matching ht.hash_key_compare k
        (ht.bucket (ht.hash_function k % ht.nbuckets)) = [] := hm
    have hfilter2 : (ht.bucket (ht.hash_function k % ht.nbuckets)).filter
        (fun e => !ht.hash_key_compare e.key k)
        = ht.bucket (ht.hash_function k % ht.nbuckets) := hfilter
    refine ⟨⟨ht.nentries + 1,
      ht.buckets.set (ht.hash_val k) (⟨k, v⟩ :: ht.bucket (ht.hash_val k)),
      ht.hash_function, ht.hash_key_compare⟩, ?_, rfl, ?_, ?_, ?_, ?_, ?_⟩
    · simp [icl_hash_update_insert, hloop]
    · rw [hfilter2]
      exact bucket_set_same _ _ _ hlt
    · intro j hj
      exact bucket_set_other _ _ _ _ (Ne.symm hj)
    · simp [icl_hash_t.nbuckets]
    · intro _
      rfl
    · intro hne
      exact absurd hm2 hne
  · have hm2 : matching ht.hash_key_compare k
        (ht.bucket (ht.hash_function k % ht.nbuckets)) = [e] := hm
    refine ⟨⟨ht.nentries - 1 + 1,
      ht.buckets.set (ht.hash_val k) (⟨k, v⟩ ::
        (ht.bucket (ht.hash_val k)).filter (fun e => !ht.hash_key_compare e.key k)),
      ht.hash_function, ht.hash_key_compare⟩, ?_, rfl, ?_, ?_, ?_, ?_, ?_⟩
    · simp [icl_hash_update_insert, hloop]
    · exact bucket_set_same _ _ _ hlt
    · intro j hj
      exact bucket_set_other _ _ _ _ (Ne.symm hj)
    · simp [icl_hash_t.nbuckets]
    · intro hnil
      rw [hm2] at hnil
      exact absurd hnil (by simp)
    · intro _
      show ht.nentries - 1 + 1 = ht.nentries
      omega

/-- C15 at `sample_table`: key 1 (one match in bucket 1) replaces its entry and
leaves `nentries` at 3. -/
theorem C15_update_insert_frame_witness :
    0 < sample_table.nbuckets ∧
    (matching sample_table.hash_key_compare 1
      (sample_table.bucket (sample_table.hash_function 1 % sample_table.nbuckets))).length ≤ 1 ∧
    ∃ t, (icl_hash_update_insert (some sample_table) (some 1) (some 77) none).ht = some t ∧
      t.bucket 1 = [⟨1, some 77⟩, ⟨5, some 50⟩] ∧ t.nentries = 3 ∧
      t.bucket 2 = sample_table.bucket 2 := by
  obtain ⟨t, hht, _, hb, hothers, _, _, hne⟩ :=
    C15_update_insert_frame sample_table 1 (some 77) none (by decide) (by decide)
  refine ⟨by decide, by decide, t, hht, ?_, ?_, hothers 2 (by decide)⟩
  · have h1 : sample_table.hash_function 1 % sample_table.nbuckets = 1 := by decide
    rw [h1] at hb
    rw [hb]
    decide
  · rw [hne (by decide)]
    decide

/-! ## C16: entries hash to their bucket -/

theorem update_insert_loop_subset (cmp : K → K → Bool) (key : K)
    (chain : List (icl_entry K V)) (prev : prev_state) (n : Int)
    (s : Option (Option (icl_entry K V))) :
    ∀ x ∈ (update_insert_loop cmp key prev chain n s).1, x ∈ chain := by
  induction chain generalizing prev n s with
  | nil => simp [update_insert_loop]
  | cons curr next ih =>
    intro x hx
    by_cases hc : cmp curr.key key = true
    · cases prev with
      | unlinked =>
        simp only [update_insert_loop, hc, if_true, List.mem_cons] at hx
        rcases hx with rfl | hx
        · simp
        · exact List.mem_cons_of_mem _ (ih _ _ _ x hx)
      | null =>
        simp only [update_insert_loop, hc, if_true] at hx
        exact List.mem_cons_of_mem _ (ih _ _ _ x hx)
      | linked =>
        simp only [update_insert_loop, hc, if_true] at hx
        exact List.mem_cons_of_mem _ (ih _ _ _ x hx)
    · simp only [update_insert_loop, hc, Bool.false_eq_true, if_false, List.mem_cons] at hx
      rcases hx with rfl | hx
      · simp
      · exact List.mem_cons_of_mem _ (ih _ _ _ x hx)

theorem delete_loop_subset (cmp : K → K → Bool) (key : K) (chain : List (icl_entry K V))
    (found : icl_entry K V) (rest : List (icl_entry K V))
    (h : delete_loop cmp key chain = some (found, rest)) : ∀ x ∈ rest, x ∈ chain := by
  induction chain generalizing found rest with
  | nil => simp [delete_loop] at h
  | cons curr next ih =>
    by_cases hc : cmp curr.key key = true
    · simp only [delete_loop, hc, if_true, Option.some.injEq, Prod.mk.injEq] at h
      intro x hx
      rw [← h.2] at hx
      exact List.mem_cons_of_mem _ hx
    · simp only [delete_loop, hc, Bool.false_eq_true, if_false] at h
      cases hd : delete_loop cmp key next with
      | none => simp [hd] at h
      | some r =>
        obtain ⟨f2, rest2⟩ := r
        simp only [hd, Option.some.injEq, Prod.mk.injEq] at h
        intro x hx
        rw [← h.2] at hx
        rcases List.mem_cons.mp hx with rfl | hx
        · simp
        · exact List.mem_cons_of_mem _ (ih f2 rest2 hd x hx)

theorem hash_inv_set (ht : icl_hash_t K V) (hinv : hash_inv ht) (i : Nat)
    (hi : i < ht.buckets.length) (c : List (icl_entry K V)) (m : Int)
    (hc : ∀ e ∈ c, ht.hash_function e.key % ht.nbuckets = i) :
    hash_inv ⟨m, ht.buckets.set i c, ht.hash_function, ht.hash_key_compare⟩ := by
  intro b e he
  simp only [icl_hash_t.bucket, icl_hash_t.nbuckets, List.length_set] at he ⊢
  by_cases hb : i = b
  · subst hb
    rw [bucket_set_same _ _ _ hi] at he
    exact hc e he
  · rw [bucket_set_other _ _ _ _ hb] at he
    exact hinv b e he

theorem apply_op_hash_inv (ht : icl_hash_t K V) (hn : 0 < ht.nbuckets) (hinv : hash_inv ht)
    (op : table_op K V) :
    ∃ t, apply_op (some ht) op = some t ∧ hash_inv t ∧ t.nbuckets = ht.nbuckets := by
  cases op with
  | update_insert key data oldnode =>
    have hlt := hash_val_lt ht key hn
    refine ⟨_, rfl, ?_, by simp [icl_hash_t.nbuckets]⟩
    apply hash_inv_set ht hinv _ hlt
    intro e he
    rcases List.mem_cons.mp he with rfl | he
    · rfl
    · exact hinv _ e (update_insert_loop_subset _ _ _ _ _ _ e he)
  | delete key free_key free_data =>
    have hlt := hash_val_lt ht key hn
    cases hd : delete_loop ht.hash_key_compare key (ht.bucket (ht.hash_val key)) with
    | none => exact ⟨ht, by simp [apply_op, icl_hash_delete, hd], hinv, rfl⟩
    | some r =>
      obtain ⟨found, rest⟩ := r
      refine ⟨⟨ht.nentries - 1, ht.buckets.set (ht.hash_val key) rest, ht.hash_function,
        ht.hash_key_compare⟩, by simp [apply_op, icl_hash_delete, hd], ?_,
        by simp [icl_hash_t.nbuckets]⟩
      apply hash_inv_set ht hinv _ hlt
      intro e he
      exact hinv _ e (delete_loop_subset _ _ _ found rest hd e he)

theorem run_ops_hash_inv (ops : List (table_op K V)) (ht : icl_hash_t K V)
    (hn : 0 < ht.nbuckets) (hinv : hash_inv ht) :
    ∃ t, run_ops (some ht) ops = some t ∧ hash_inv t ∧ t.nbuckets = ht.nbuckets := by
  induction ops generalizing ht with
  | nil => exact ⟨ht, rfl, hinv, rfl⟩
  | cons op ops ih =>
    obtain ⟨t1, h1, hinv1, hnb1⟩ := apply_op_hash_inv ht hn hinv op
    obtain ⟨t, h2, hinv2, hnb2⟩ := ih t1 (by rw [hnb1]; exact hn) hinv1
    refine ⟨t, ?_, hinv2, hnb2.trans hnb1⟩
    simp only [run_ops, List.foldl_cons] at h2 ⊢
    rw [h1]
    exact h2

/-- C16: take the table returned by `icl_hash_create` with `nbuckets > 0` and
apply any sequence of `icl_hash_update_insert` and `icl_hash_delete` calls.
The sequence runs to a table with the same number of buckets in which every
entry reachable from bucket `b` satisfies `hash(entry.key) % nbuckets = b`,
with the hash function of the table. -/
theorem C16_entries_hash_to_their_bucket (cstr : K → List Int) (n : Nat) (hn : 0 < n)
    (hash_function : Option (K → Nat)) (hash_key_compare : Option (K → K → Bool))
    (ops : List (table_op K V)) :
    ∃ t : icl_hash_t K V,
      run_ops (icl_hash_create cstr n hash_function hash_key_compare) ops = some t ∧
      t.nbuckets = n ∧
      ∀ b e, e ∈ t.bucket b → t.hash_function e.key % t.nbuckets = b := by
  obtain ⟨t, hrun, hinv, hnb⟩ := run_ops_hash_inv ops
    (⟨0, List.replicate n [], fun key => hash_pjw cstr (some key),
      match hash_key_compare with
      | some cmp => cmp
      | none => string_compare cstr⟩ : icl_hash_t K V)
    (by simpa [icl_hash_t.nbuckets] using hn)
    (by
      intro b e he
      simp [icl_hash_t.bucket, List.getD_eq_getElem?_getD, List.getElem?_replicate] at he
      split at he <;> simp at he)
  refine ⟨t, hrun, ?_, hinv⟩
  rw [hnb]
  simp [icl_hash_t.nbuckets]

/-- C16 on the 4-bucket table with string keys after the calls of `sample_ops`:
the keys "a" and "b" are left, in the buckets 1 and 2. -/
theorem C16_entries_hash_to_their_bucket_witness :
    0 < 4 ∧
    (run_ops (icl_hash_create (fun k => k) 4 none none) sample_ops).map
        (fun t : icl_hash_t (List Int) Nat => t.buckets)
      = some [[], [⟨[97], some 4⟩], [⟨[98], some 3⟩], []] ∧
    ∃ t : icl_hash_t (List Int) Nat,
      run_ops (icl_hash_create (fun k => k) 4 none none) sample_ops = some t ∧
      t.nbuckets = 4 ∧
      ∀ b e, e ∈ t.bucket b → t.hash_function e.key % t.nbuckets = b :=
  ⟨by decide, by decide,
    C16_entries_hash_to_their_bucket (fun k => k) 4 (by decide) none none sample_ops⟩

/-! ## C17: no two equal keys in a chain -/

/-- C17: take the table returned by `icl_hash_create` with `nbuckets > 0` and a
key predicate that is an equivalence relation, and apply any sequence of
`icl_hash_update_insert` and `icl_hash_delete` calls. The sequence runs to a
table in which no two entries at different places of the same bucket chain
have keys that compare equal, in either argument order. -/
theorem C17_no_equal_keys_in_a_chain (cstr : K → List Int) (n : Nat) (hn : 0 < n)
    (hash_function : Option (K → Nat)) (hash_key_compare : Option (K → K → Bool))
    (t0 : icl_hash_t K V)
    (hcreate : icl_hash_create cstr n hash_function hash_key_compare = some t0)
    (heq : is_equivalence t0.hash_key_compare) (ops : List (table_op K V)) :
    ∃ t, run_ops (icl_hash_create cstr n hash_function hash_key_compare) ops = some t ∧
      ∀ chain ∈ t.buckets, chain.Pairwise
        (fun a b => t.hash_key_compare a.key b.key = false ∧
          t.hash_key_compare b.key a.key = false) := by
  obtain ⟨hinv0, hnb0⟩ := create_inv cstr n hash_function hash_key_compare t0 hcreate
  obtain ⟨t, hrun, hinv, hcmp, _, _⟩ := run_ops_inv ops t0 (by rw [hnb0]; exact hn) heq hinv0
  rw [hcreate]
  refine ⟨t, hrun, ?_⟩
  intro chain hchain
  have hnd := hinv.1 chain hchain
  unfold no_dup at hnd
  refine List.Pairwise.imp ?_ hnd
  intro a b hab
  refine ⟨hab, ?_⟩
  cases hba : t.hash_key_compare b.key a.key with
  | false => rfl
  | true =>
    have hsymm : t.hash_key_compare a.key b.key = true := by
      rw [hcmp] at hba ⊢
      exact heq.2.1 _ _ hba
    rw [hab] at hsymm
    exact absurd hsymm (by simp)

/-- C17 on the 4-bucket table with the default string predicate after the calls
of `sample_ops`. -/
theorem C17_no_equal_keys_in_a_chain_witness :
    0 < 4 ∧ is_equivalence (string_compare (fun k : List Int => k)) ∧
    ∃ t : icl_hash_t (List Int) Nat,
      run_ops (icl_hash_create (fun k => k) 4 none none) sample_ops = some t ∧
      ∀ chain ∈ t.buckets, chain.Pairwise
        (fun a b => t.hash_key_compare a.key b.key = false ∧
          t.hash_key_compare b.key a.key = false) :=
  ⟨by decide, string_compare_equivalence _,
    C17_no_equal_keys_in_a_chain (fun k => k) 4 (by decide) none none _ rfl
      (string_compare_equivalence _) sample_ops⟩

/-! ## C19: the slot when nothing is replaced -/

/-- C19: when no entry of bucket `hash(key) % nbuckets` compares equal to the
key, `icl_hash_update_insert` leaves the caller's `oldnode` slot as it was: a
slot that held a node pointer still holds it, a slot that held `NULL` still
holds `NULL`, and a null slot pointer stays null. -/
theorem C19_slot_untouched_without_match (ht : icl_hash_t K V) (key : K) (data : Option V)
    (oldnode : Option (Option (icl_entry K V)))
    (hno : ∀ x ∈ ht.bucket (ht.hash_function key % ht.nbuckets),
      ht.hash_key_compare x.key key = false) :
    (icl_hash_update_insert (some ht) (some key) data oldnode).oldnode = oldnode := by
  have hloop := update_insert_loop_no_match ht.hash_key_compare key
    (ht.bucket (ht.hash_val key)) hno prev_state.null ht.nentries oldnode
  simp [icl_hash_update_insert, hloop]

/-- C19 at `sample_table`: the slot is pre-set to the entry with key 1 and the
key 9, which matches nothing, is inserted; the slot still holds that entry
afterwards, which is also what it holds after the call that replaces the
entry with key 1, started with a slot holding `NULL`. -/
theorem C19_slot_untouched_without_match_witness :
    (∀ x ∈ sample_table.bucket (sample_table.hash_function 9 % sample_table.nbuckets),
      sample_table.hash_key_compare x.key 9 = false) ∧
    (icl_hash_update_insert (some sample_table) (some 9) (some 90)
      (some (some ⟨1, some 10⟩))).oldnode = some (some ⟨1, some 10⟩) ∧
    (icl_hash_update_insert (some sample_table) (some 1) (some 90) (some none)).oldnode
      = some (some ⟨1, some 10⟩) :=
  ⟨by decide,
    C19_slot_untouched_without_match sample_table 9 (some 90) (some (some ⟨1, some 10⟩))
      (by decide),
    by decide⟩

end IclHash
